import Mathlib

/-!
# fbmsgr: thread metadata and the full action log

A shallow embedding of `threads.go`:

* `marshalThreadInfo` / `marshalThreadList` (decoding of thread metadata),
* `ActionLog` (one page of a thread's history),
* `FullActionLog` (the loop that pages through the whole history and sends it
  over a channel).

The producer goroutine of `FullActionLog` is sequential.  Its interaction with
the outside world is made explicit:

* the remote call is a function of the attempt number and of the arguments the
  code passes (a remote service may answer differently at every call);
* what each `select` observes on the `cancel` channel is given by an oracle,
  indexed by the number of `select` statements executed so far;
* everything the goroutine does (calls to `ActionLog`, sends on `res`, sends on
  `errRes`) is recorded in the value it returns.

The loop has no static bound, so the embedding takes a bound on the number of
loop iterations (`fuel`); a run that uses it up ends as `Ending.unfinished`.
-/

namespace Fbmsgr

/-! ## Time -/

/-- A Go `time.Time`, as a count of nanoseconds relative to the Unix epoch. -/
abbrev Time := Int

/-- The zero value of `time.Time`: January 1, year 1, 00:00:00 UTC, which is
`-62135596800` seconds from the Unix epoch. -/
def zeroTime : Time := -62135596800000000000

/-- Go `Time.IsZero`. -/
def IsZero (t : Time) : Bool := t == zeroTime

/-- Two's-complement reduction to a signed 64-bit integer. -/
def wrapInt64 (x : Int) : Int := (x + 2 ^ 63) % 2 ^ 64 - 2 ^ 63

/-- Go `Time.UnixNano`, an `int64` (the result wraps outside the years
1678..2262, where Go leaves it undefined). -/
def UnixNano (t : Time) : Int := wrapInt64 t

/-- `const actionBufferSize = 500`. -/
def actionBufferSize : Nat := 500

/-! ## Thread metadata -/

/-- The `thread_key` object of a `ThreadResponse`. -/
structure ThreadKey where
  ThreadFbid : String
  OtherUserID : String
deriving Repr, DecidableEq

/-- The `messaging_actor` object of a participant (the fields that are read). -/
structure MessagingActor where
  ID : String
  Name : String
deriving Repr, DecidableEq

/-- One node of `last_message.nodes` (the fields that are read). -/
structure LastMessageNode where
  Snippet : String
  SenderID : String
  TimestampPrecise : String
deriving Repr, DecidableEq

/-- The fields of `ThreadResponse` that `marshalThreadInfo` reads. -/
structure ThreadResponse where
  ThreadKey : ThreadKey
  Name : String
  LastMessage : List LastMessageNode
  UnreadCount : Int
  MessagesCount : Int
  AllParticipants : List MessagingActor
deriving Repr, DecidableEq

/-- Go `ThreadInfo`.  A `*string` is an `Option String`, `nil` being `none`.
`F` stands for `float64`. -/
structure ThreadInfo (F : Type) where
  ThreadID : String
  ThreadFBID : String
  Name : String
  OtherUserFBID : Option String
  Participants : List String
  Snippet : String
  SnippetSender : String
  UnreadCount : Int
  MessageCount : Int
  Timestamp : F
  ServerTimestamp : F

/-- Go `marshalThreadInfo`.  `canonicalFBID` (declared elsewhere in the
package) and `strconv.ParseFloat` are parameters; `zero` is the `float64` 0.
The index `Nodes[0]` of the two-participant case is in range there. -/
def marshalThreadInfo {F : Type} (canonicalFBID : String → String)
    (ParseFloat : String → Option F) (zero : F) (resp : ThreadResponse) : ThreadInfo F :=
  let participantIDs := resp.AllParticipants.map (fun participant => participant.ID)
  let name :=
    if resp.Name = "" ∧ participantIDs.length = 2 then
      (resp.AllParticipants.head?.map (fun node => node.Name)).getD ""
    else if resp.Name = "" then "Unnamed Group DM"
    else resp.Name
  let threadInfo : ThreadInfo F :=
    { ThreadID := canonicalFBID resp.ThreadKey.ThreadFbid
      ThreadFBID := canonicalFBID resp.ThreadKey.ThreadFbid
      Name := name
      OtherUserFBID := some resp.ThreadKey.OtherUserID
      Participants := participantIDs
      Snippet := ""
      SnippetSender := ""
      UnreadCount := resp.UnreadCount
      MessageCount := resp.MessagesCount
      Timestamp := zero
      ServerTimestamp := zero }
  match resp.LastMessage with
  | [] => threadInfo
  | node :: _ =>
    let timestamp := (ParseFloat node.TimestampPrecise).getD zero
    { threadInfo with
      Snippet := node.Snippet
      SnippetSender := node.SenderID
      Timestamp := timestamp
      ServerTimestamp := timestamp }

/-- Go `marshalThreadList`. -/
def marshalThreadList {F : Type} (canonicalFBID : String → String)
    (ParseFloat : String → Option F) (zero : F) (respObj : List ThreadResponse) :
    List (ThreadInfo F) :=
  respObj.map (marshalThreadInfo canonicalFBID ParseFloat zero)

/-! ## One page of history -/

/-- Go `ActionLog` for one call.  `graphQLDoc` is the remote query as seen by
this call: given the `before` parameter (`none` for `nil`, otherwise the
decimal number that is formatted) and `message_limit`, it yields the decoded
`nodes` or an error.  `decodeAction` is declared elsewhere in the package.  The
deferred `AddCtxTo` only decorates the error and is part of `graphQLDoc` here.
The division is Go's, truncating. -/
def ActionLog {ν α ε : Type} (graphQLDoc : Option Int → Nat → Except ε (List ν))
    (decodeAction : ν → α) (timestamp : Time) (limit : Nat) : Except ε (List α) :=
  let before : Option Int :=
    if IsZero timestamp then none else some (Int.tdiv (UnixNano timestamp) 1000000)
  match graphQLDoc before limit with
  | .error err => .error err
  | .ok nodes => .ok (nodes.map decodeAction)

/-! ## The full history -/

/-- How a run of the producer goroutine ended. -/
inductive Ending where
  /-- The listing was empty after the overlap removal: `return`. -/
  | exhausted
  /-- The call to `ActionLog` failed: `errRes <- err; return`. -/
  | failed
  /-- A `select` took the `<-cancel` branch: `return`. -/
  | cancelled
  /-- The bound on the number of iterations was reached; the goroutine is still running. -/
  | unfinished
deriving Repr, DecidableEq

/-- What one iteration of the `for` loop did. -/
structure Iteration (α ε : Type) where
  /-- The value of `lastTime` passed to `ActionLog`. -/
  cursor : Time
  /-- What `ActionLog` returned. -/
  result : Except ε (List α)
  /-- The variable `listing` after the overlap removal (empty on error). -/
  listing : List α
  /-- The actions sent on `res` during this iteration, in order. -/
  sent : List α

/-- The observable behaviour of the producer goroutine. -/
structure Run (α ε : Type) where
  /-- The iterations of the loop, in order; each one made one call to `ActionLog`. -/
  iterations : List (Iteration α ε)
  /-- The values sent on `errRes`, in order. -/
  errors : List ε
  /-- How the run ended. -/
  ending : Ending
  /-- The variable `lastTime` at the end. -/
  lastTime : Time
  /-- The variable `offset` at the end. -/
  offset : Nat

/-- The actions sent on `res` over the whole run, in order. -/
def Run.delivered {α ε : Type} (r : Run α ε) : List α :=
  (r.iterations.map (fun it => it.sent)).flatten

/-- The number of calls to `ActionLog`. -/
def Run.fetches {α ε : Type} (r : Run α ε) : Nat := r.iterations.length

/-- Prepends one completed iteration to the rest of a run. -/
def Run.after {α ε : Type} (it : Iteration α ε) (r : Run α ε) : Run α ε :=
  { r with iterations := it :: r.iterations }

/-- The inner loop `for i := len(listing) - 1; i >= 0; i--`, given the
elements in the order it visits them.  Each element passes two `select`
statements; `cancel k` tells whether the `k`-th `select` of the run takes the
`<-cancel` branch.  Returns the actions sent, the number of `select`s executed
so far, and whether the loop returned on cancellation. -/
def pushListing {α : Type} (cancel : Nat → Bool) : Nat → List α → List α × Nat × Bool
  | sel, [] => ([], sel, false)
  | sel, x :: xs =>
    if cancel sel then ([], sel + 1, true)
    else if cancel (sel + 1) then ([], sel + 2, true)
    else
      let r := pushListing cancel (sel + 2) xs
      (x :: r.1, r.2.1, r.2.2)

/-- The step `// Remove the one overlapping action.`: `listing[:len(listing)-1]`
when `offset > 0 && len(listing) > 0`. -/
def removeOverlap {α : Type} (offset : Nat) (fetched : List α) : List α :=
  if offset > 0 ∧ fetched.length > 0 then fetched.take (fetched.length - 1) else fetched

/-- The `for` loop of the goroutine in `FullActionLog`, from the state
`(lastTime, offset)`; `attempt` counts the calls to `ActionLog` made before,
`sel` the `select` statements executed before.  `ActionLog attempt` is the
session's method at that call, `ActionTime` the method of the `Action`
interface (declared elsewhere in the package).  `offset` is a Go `int`; it
counts the actions sent and is far from the 64-bit range. -/
def fullActionLogLoop {α ε : Type} (ActionLog : Nat → Time → Nat → Except ε (List α))
    (ActionTime : α → Time) (cancel : Nat → Bool) :
    Nat → Nat → Nat → Time → Nat → Run α ε
  | 0, _, _, lastTime, offset =>
    { iterations := [], errors := [], ending := .unfinished, lastTime := lastTime,
      offset := offset }
  | fuel + 1, attempt, sel, lastTime, offset =>
    match ActionLog attempt lastTime actionBufferSize with
    | .error err =>
      { iterations := [⟨lastTime, .error err, [], []⟩], errors := [err], ending := .failed,
        lastTime := lastTime, offset := offset }
    | .ok fetched =>
      match removeOverlap offset fetched with
      | [] =>
        { iterations := [⟨lastTime, .ok fetched, [], []⟩], errors := [], ending := .exhausted,
          lastTime := lastTime, offset := offset }
      | first :: rest =>
        let pushed := pushListing cancel sel (first :: rest).reverse
        if pushed.2.2 then
          { iterations := [⟨lastTime, .ok fetched, first :: rest, pushed.1⟩], errors := [],
            ending := .cancelled, lastTime := lastTime, offset := offset }
        else
          Run.after ⟨lastTime, .ok fetched, first :: rest, pushed.1⟩
            (fullActionLogLoop ActionLog ActionTime cancel fuel (attempt + 1) pushed.2.1
              (ActionTime first) (offset + (first :: rest).length))

/-- Go `FullActionLog`: the behaviour of the goroutine it starts, which begins
with `lastTime` the zero time and `offset = 0`. -/
def FullActionLog {α ε : Type} (ActionLog : Nat → Time → Nat → Except ε (List α))
    (ActionTime : α → Time) (cancel : Nat → Bool) (fuel : Nat) : Run α ε :=
  fullActionLogLoop ActionLog ActionTime cancel fuel 0 0 zeroTime 0

/-- The `cancel` channel is never closed. -/
def neverCancelled : Nat → Bool := fun _ => false

/-! ## Page fetchers named by the specification -/

/-- The Page Fetcher guarantee of the specification: a page has at most `limit`
actions, is in reverse-chronological order (timestamps never increase along
the page), and holds only actions with `timestamp < cursor` when the cursor is
present (not the zero time). -/
def MeetsPageGuarantee {α ε : Type} (ActionLog : Nat → Time → Nat → Except ε (List α))
    (ActionTime : α → Time) : Prop :=
  ∀ attempt cursor limit page, ActionLog attempt cursor limit = .ok page →
    page.length ≤ limit ∧
    page.Pairwise (fun a b => ActionTime b ≤ ActionTime a) ∧
    (IsZero cursor = false → ∀ a ∈ page, ActionTime a < cursor)

/-- The convention the loop is written for: a page is in chronological order
(timestamps never decrease along the page), holds no action stamped with the
zero time, and holds only actions with `timestamp ≤ cursor` when the cursor is
present. -/
def ChronologicalPages {α ε : Type} (ActionLog : Nat → Time → Nat → Except ε (List α))
    (ActionTime : α → Time) : Prop :=
  ∀ attempt cursor limit page, ActionLog attempt cursor limit = .ok page →
    page.Pairwise (fun a b => ActionTime a ≤ ActionTime b) ∧
    (∀ a ∈ page, IsZero (ActionTime a) = false) ∧
    (IsZero cursor = false → ∀ a ∈ page, ActionTime a ≤ cursor)

/-- A conversation listed newest first (stable for equal timestamps). -/
def newestFirst {α : Type} (ActionTime : α → Time) (history : List α) : List α :=
  history.insertionSort (fun a b => ActionTime b ≤ ActionTime a)

/-- A page fetcher with page size `S` and an exclusive cursor, as the
specification describes it: the `S` newest actions with `timestamp < cursor`
(the `S` newest overall when the cursor is the zero time), newest first, never
more than `limit`. -/
def exclusiveFetcher {α ε : Type} (ActionTime : α → Time) (history : List α) (S : Nat) :
    Nat → Time → Nat → Except ε (List α) :=
  fun _ cursor limit =>
    .ok (((newestFirst ActionTime history).filter
      (fun a => IsZero cursor || decide (ActionTime a < cursor))).take (min S limit))

/-- The up-to-`size` newest actions of a conversation among those with
`timestamp ≤ bound` (all of them when there is no bound), oldest first. -/
def newestPage {α : Type} (ActionTime : α → Time) (history : List α) (bound : Option Time)
    (size : Nat) : List α :=
  (((newestFirst ActionTime history).filter
    (fun a => match bound with
      | none => true
      | some c => decide (ActionTime a ≤ c))).take size).reverse

/-- A page fetcher with page size `S` and an inclusive cursor: the `S` newest
actions with `timestamp ≤ cursor` (the `S` newest overall when the cursor is
the zero time), oldest first, never more than `limit`. -/
def inclusiveFetcher {α ε : Type} (ActionTime : α → Time) (history : List α) (S : Nat) :
    Nat → Time → Nat → Except ε (List α) :=
  fun _ cursor limit =>
    .ok (newestPage ActionTime history (if IsZero cursor then none else some cursor)
      (min S limit))

/-- The number of calls the loop makes against `inclusiveFetcher` for a
conversation of `K` actions with distinct timestamps and page size `S ≥ 2`:
one call for an empty conversation; otherwise the first call, then
`⌈(K - min K S) / (S - 1)⌉` calls that each bring up to `S - 1` new actions,
then the call that returns the boundary action alone. -/
def inclusiveFetchCount (K S : Nat) : Nat :=
  if K = 0 then 1 else 2 + (K - min K S + (S - 2)) / (S - 1)

/-! ## Hypotheses on page fetchers used below -/

/-- A page fetcher that never fails, serves actions of a finite conversation,
none stamped with the zero time, and lets the cursor move back: whenever a
page fetched at a present cursor is still non-empty after the removal of its
last action, its first action is strictly older than that cursor. -/
def ServesWithProgress {α ε : Type} (AL : Nat → Time → Nat → Except ε (List α))
    (T : α → Time) (history : List α) : Prop :=
  (∀ attempt cursor, ∃ page, AL attempt cursor actionBufferSize = .ok page) ∧
  (∀ attempt cursor page, AL attempt cursor actionBufferSize = .ok page →
    ∀ a ∈ page, a ∈ history) ∧
  (∀ a ∈ history, IsZero (T a) = false) ∧
  (∀ attempt cursor page first rest, IsZero cursor = false →
    AL attempt cursor actionBufferSize = .ok page → page.dropLast = first :: rest →
    T first < cursor)

/-- What the loop needs of a fetcher that serves the conversation `h` (listed
strictly newest first) with page size `S` and an inclusive cursor. -/
def ServesInclusive {α ε : Type} (AL : Nat → Time → Nat → Except ε (List α))
    (T : α → Time) (h : List α) (S : Nat) : Prop :=
  (∀ attempt, AL attempt zeroTime actionBufferSize = .ok ((h.take S).reverse)) ∧
  (∀ attempt, ∀ a ∈ h, AL attempt (T a) actionBufferSize =
    .ok (((h.filter (fun b => decide (T b ≤ T a))).take S).reverse))

/-- A whole-millisecond timestamp: `ms` milliseconds from the Unix epoch, the
count of nanoseconds being one that `UnixNano` can represent (an `int64`). -/
def IsUnixMilli (t : Int) : Prop :=
  ∃ ms : Int, t = ms * 1000000 ∧ -9223372036854775808 ≤ t ∧ t ≤ 9223372036854775807

/-- A remote endpoint that serves a conversation the way the loop expects:
whatever the call, it answers `message_limit = 500` with nodes that decode to
the up-to-500 newest actions whose timestamp is at most the instant `before`
milliseconds (the up-to-500 newest overall for `before = nil`), oldest first. -/
def ServesHistory {ν α ε : Type} (graphQLDoc : Nat → Option Int → Nat → Except ε (List ν))
    (decodeAction : ν → α) (ActionTime : α → Time) (history : List α) : Prop :=
  ∀ attempt before, ∃ nodes, graphQLDoc attempt before actionBufferSize = .ok nodes ∧
    nodes.map decodeAction =
      newestPage ActionTime history (before.map (fun ms => ms * 1000000)) actionBufferSize

/-! ## Concrete inputs -/

/-- A fetcher whose first two calls succeed and whose later calls fail. -/
def failingFetcher : Nat → Time → Nat → Except String (List Int) :=
  fun attempt _ _ =>
    if attempt = 0 then .ok [1, 2, 3] else if attempt = 1 then .ok [0, 1]
    else .error "connection reset"

/-- The scenario of the specification: pages of 500, 500, 251 and 0 actions. -/
def scenarioFetcher : Nat → Time → Nat → Except String (List Int) :=
  fun attempt _ _ =>
    .ok (List.replicate (match attempt with
      | 0 => 500
      | 1 => 500
      | 2 => 251
      | _ => 0) 1)

/-- Two pages, `[1, 2, 3]` and then `[0, 1]`, and nothing after. -/
def twoPageFetcher : Nat → Time → Nat → Except String (List Int) :=
  fun attempt _ _ =>
    if attempt = 0 then .ok [1, 2, 3] else if attempt = 1 then .ok [0, 1] else .ok []

/-- The `cancel` channel is seen closed from the `k`-th `select` on. -/
def cancelledFrom (k : Nat) : Nat → Bool := fun sel => decide (k ≤ sel)

/-- A group chat: `thread_key.other_user_id` is empty, three participants. -/
def groupChatResponse : ThreadResponse :=
  { ThreadKey := { ThreadFbid := "1509283746", OtherUserID := "" }
    Name := "Weekend plans"
    LastMessage := []
    UnreadCount := 0
    MessagesCount := 12
    AllParticipants := [⟨"100", "Ann"⟩, ⟨"200", "Bob"⟩, ⟨"300", "Chris"⟩] }

/-- Two actions, one stamped with the zero time and one a millisecond later. -/
def zeroTimeHistory : List Time := [zeroTime, zeroTime + 1000000]

/-- Two actions with whole-millisecond timestamps: one in the year 1653, before
the range of `UnixNano`, and one a millisecond after the Unix epoch. -/
def earlyHistory : List Time := [-10000000000000000000, 1000000]

/-- 501 actions a millisecond apart in the year 2286, after the range of
`UnixNano`, listed newest first. -/
def lateHistory : List Time :=
  (List.range 501).reverse.map (fun i : Nat => 10000000000000000000 + (i : Int) * 1000000)

/-- Two actions (numbered 1 and 2) that share the timestamp 5. -/
def tiedHistory : List (Nat × Time) := [(1, 5), (2, 5)]

/-- A remote endpoint whose nodes are the actions themselves (timestamps). -/
def historyEndpoint (history : List Time) : Nat → Option Int → Nat → Except String (List Time) :=
  fun _ before limit => .ok (newestPage id history (before.map (fun ms => ms * 1000000)) limit)

/-! ## The shape of a run -/

section Shape

variable {α ε : Type} (AL : Nat → Time → Nat → Except ε (List α)) (T : α → Time)
  (c : Nat → Bool)

theorem delivered_after (it : Iteration α ε) (r : Run α ε) :
    (Run.after it r).delivered = it.sent ++ r.delivered := by
  simp [Run.after, Run.delivered]

theorem fetches_after (it : Iteration α ε) (r : Run α ε) :
    (Run.after it r).fetches = r.fetches + 1 := by
  simp [Run.after, Run.fetches]

theorem pushListing_sent_initial (sel : Nat) (xs : List α) :
    (pushListing c sel xs).1 <+: xs := by
  induction xs generalizing sel with
  | nil => simp [pushListing]
  | cons x xs ih =>
    unfold pushListing
    split_ifs
    · exact List.nil_prefix
    · exact List.nil_prefix
    · simpa using (List.prefix_cons_inj x).mpr (ih (sel + 2))

theorem pushListing_completed (sel : Nat) (xs : List α)
    (h : (pushListing c sel xs).2.2 = false) : (pushListing c sel xs).1 = xs := by
  induction xs generalizing sel with
  | nil => simp [pushListing]
  | cons x xs ih =>
    cases h1 : c sel with
    | true => simp [pushListing, h1] at h
    | false =>
      cases h2 : c (sel + 1) with
      | true => simp [pushListing, h1, h2] at h
      | false =>
        simp only [pushListing, h1, h2, Bool.false_eq_true, if_false] at h ⊢
        simp only [List.cons.injEq, true_and]
        exact ih (sel + 2) h

theorem pushListing_neverCancelled (sel : Nat) (xs : List α) :
    (pushListing neverCancelled sel xs).2.2 = false := by
  induction xs generalizing sel with
  | nil => simp [pushListing]
  | cons x xs ih =>
    unfold pushListing
    simpa [neverCancelled] using ih (sel + 2)

/-- The four ways one iteration of the loop can go. -/
theorem loop_cases (fuel attempt sel : Nat) (lastTime : Time) (offset : Nat) :
    (∃ err, AL attempt lastTime actionBufferSize = .error err ∧
      fullActionLogLoop AL T c (fuel + 1) attempt sel lastTime offset =
        { iterations := [⟨lastTime, .error err, [], []⟩], errors := [err], ending := .failed,
          lastTime := lastTime, offset := offset }) ∨
    (∃ fetched, AL attempt lastTime actionBufferSize = .ok fetched ∧
      removeOverlap offset fetched = [] ∧
      fullActionLogLoop AL T c (fuel + 1) attempt sel lastTime offset =
        { iterations := [⟨lastTime, .ok fetched, [], []⟩], errors := [], ending := .exhausted,
          lastTime := lastTime, offset := offset }) ∨
    (∃ fetched first rest, AL attempt lastTime actionBufferSize = .ok fetched ∧
      removeOverlap offset fetched = first :: rest ∧
      (pushListing c sel (first :: rest).reverse).2.2 = true ∧
      fullActionLogLoop AL T c (fuel + 1) attempt sel lastTime offset =
        { iterations := [⟨lastTime, .ok fetched, first :: rest,
            (pushListing c sel (first :: rest).reverse).1⟩],
          errors := [], ending := .cancelled, lastTime := lastTime, offset := offset }) ∨
    (∃ fetched first rest, AL attempt lastTime actionBufferSize = .ok fetched ∧
      removeOverlap offset fetched = first :: rest ∧
      (pushListing c sel (first :: rest).reverse).2.2 = false ∧
      fullActionLogLoop AL T c (fuel + 1) attempt sel lastTime offset =
        Run.after ⟨lastTime, .ok fetched, first :: rest, (first :: rest).reverse⟩
          (fullActionLogLoop AL T c fuel (attempt + 1)
            (pushListing c sel (first :: rest).reverse).2.1 (T first)
            (offset + (first :: rest).length))) := by
  cases hf : AL attempt lastTime actionBufferSize with
  | error err =>
    left
    exact ⟨err, rfl, by simp only [fullActionLogLoop, hf]⟩
  | ok fetched =>
    right
    cases hl : removeOverlap offset fetched with
    | nil =>
      left
      exact ⟨fetched, rfl, hl, by simp only [fullActionLogLoop, hf, hl]⟩
    | cons first rest =>
      right
      cases hc : (pushListing c sel (first :: rest).reverse).2.2 with
      | true =>
        left
        refine ⟨fetched, first, rest, rfl, hl, hc, ?_⟩
        simp only [fullActionLogLoop, hf, hl, hc]
        simp
      | false =>
        right
        refine ⟨fetched, first, rest, rfl, hl, hc, ?_⟩
        have hs := pushListing_completed c sel (first :: rest).reverse hc
        simp only [fullActionLogLoop, hf, hl, hc, hs]
        simp

theorem loop_neverCancelled_continue (fuel attempt sel : Nat) (lastTime : Time) (offset : Nat)
    (fetched : List α) (first : α) (rest : List α)
    (hf : AL attempt lastTime actionBufferSize = .ok fetched)
    (hl : removeOverlap offset fetched = first :: rest) :
    fullActionLogLoop AL T neverCancelled (fuel + 1) attempt sel lastTime offset =
      Run.after ⟨lastTime, .ok fetched, first :: rest, (first :: rest).reverse⟩
        (fullActionLogLoop AL T neverCancelled fuel (attempt + 1)
          (pushListing neverCancelled sel (first :: rest).reverse).2.1 (T first)
          (offset + (first :: rest).length)) := by
  rcases loop_cases AL T neverCancelled fuel attempt sel lastTime offset with
    ⟨err, h, _⟩ | ⟨f, h, h2, _⟩ | ⟨f, a, r, h, h2, h3, _⟩ | ⟨f, a, r, h, h2, h3, h4⟩
  · rw [hf] at h; cases h
  · rw [hf] at h; cases h; rw [hl] at h2; cases h2
  · rw [pushListing_neverCancelled] at h3; cases h3
  · rw [hf] at h; cases h; rw [hl] at h2; cases h2; exact h4

theorem loop_step_exhausted (fuel attempt sel : Nat) (lastTime : Time) (offset : Nat)
    (fetched : List α) (hf : AL attempt lastTime actionBufferSize = .ok fetched)
    (hl : removeOverlap offset fetched = []) :
    fullActionLogLoop AL T c (fuel + 1) attempt sel lastTime offset =
      { iterations := [⟨lastTime, .ok fetched, [], []⟩], errors := [], ending := .exhausted,
        lastTime := lastTime, offset := offset } := by
  simp only [fullActionLogLoop, hf, hl]

theorem removeOverlap_zero (fetched : List α) : removeOverlap 0 fetched = fetched := by
  simp [removeOverlap]

theorem removeOverlap_pos (offset : Nat) (h : 0 < offset) (fetched : List α) :
    removeOverlap offset fetched = fetched.dropLast := by
  unfold removeOverlap
  rw [List.dropLast_eq_take]
  split_ifs with h1
  · rfl
  · have : fetched.length = 0 := by omega
    simp [List.length_eq_zero.mp this]

theorem removeOverlap_initial (offset : Nat) (fetched : List α) :
    removeOverlap offset fetched <+: fetched := by
  unfold removeOverlap
  split_ifs
  · exact List.take_prefix _ _
  · exact List.prefix_refl _

theorem removeOverlap_head (offset : Nat) (fetched : List α) (first : α) (rest : List α)
    (h : removeOverlap offset fetched = first :: rest) : ∃ tl, fetched = first :: tl := by
  obtain ⟨t, ht⟩ := removeOverlap_initial offset fetched
  rw [h] at ht
  exact ⟨rest ++ t, by simpa using ht.symm⟩

/-- Every iteration works on the fetched page with its overlap removed, the
offset being zero exactly at the first iteration of a run that starts at offset
zero; a run that is never cancelled sends the listing backwards. -/
theorem loop_iteration_listing (fuel attempt sel : Nat) (lastTime : Time) (offset k : Nat)
    (it : Iteration α ε)
    (hk : (fullActionLogLoop AL T c fuel attempt sel lastTime offset).iterations[k]? = some it) :
    ∃ o, (k = 0 → o = offset) ∧ (0 < k → 0 < o) ∧
      ∀ page, it.result = .ok page →
        it.listing = removeOverlap o page ∧ (c = neverCancelled → it.sent = it.listing.reverse) := by
  induction fuel generalizing attempt sel lastTime offset k with
  | zero => simp [fullActionLogLoop] at hk
  | succ fuel ih =>
    rcases loop_cases AL T c fuel attempt sel lastTime offset with
      ⟨err, _, h⟩ | ⟨f, _, h2, h⟩ | ⟨f, a, r, _, h2, h3, h⟩ | ⟨f, a, r, _, h2, h3, h⟩
    · rw [h] at hk
      cases k with
      | zero =>
        simp only [List.getElem?_cons_zero, Option.some.injEq] at hk
        subst hk
        exact ⟨offset, fun _ => rfl, fun h0 => absurd h0 (lt_irrefl 0), fun page hp => by cases hp⟩
      | succ k => simp at hk
    · rw [h] at hk
      cases k with
      | zero =>
        simp only [List.getElem?_cons_zero, Option.some.injEq] at hk
        subst hk
        refine ⟨offset, fun _ => rfl, fun h0 => absurd h0 (lt_irrefl 0), fun page hp => ?_⟩
        cases hp
        exact ⟨h2.symm, fun _ => rfl⟩
      | succ k => simp at hk
    · rw [h] at hk
      cases k with
      | zero =>
        simp only [List.getElem?_cons_zero, Option.some.injEq] at hk
        subst hk
        refine ⟨offset, fun _ => rfl, fun h0 => absurd h0 (lt_irrefl 0), fun page hp => ?_⟩
        cases hp
        refine ⟨h2.symm, fun hc => ?_⟩
        subst hc
        rw [pushListing_neverCancelled] at h3
        cases h3
      | succ k => simp at hk
    · rw [h] at hk
      cases k with
      | zero =>
        simp only [Run.after, List.getElem?_cons_zero, Option.some.injEq] at hk
        subst hk
        refine ⟨offset, fun _ => rfl, fun h0 => absurd h0 (lt_irrefl 0), fun page hp => ?_⟩
        cases hp
        exact ⟨h2.symm, fun _ => rfl⟩
      | succ k =>
        simp only [Run.after, List.getElem?_cons_succ] at hk
        obtain ⟨o, ho0, ho1, ho⟩ := ih _ _ _ _ _ hk
        refine ⟨o, fun h0 => by omega, fun _ => ?_, ho⟩
        rcases Nat.eq_zero_or_pos k with hk0 | hk0
        · rw [ho0 hk0]; simp
        · exact ho1 hk0

/-- The first call is made with the initial `lastTime`; every later call is
made with the timestamp of the first element of the previous listing. -/
theorem loop_cursor_chain (fuel attempt sel : Nat) (lastTime : Time) (offset : Nat) :
    (∀ it, (fullActionLogLoop AL T c fuel attempt sel lastTime offset).iterations[0]? = some it →
      it.cursor = lastTime) ∧
    ∀ k it next,
      (fullActionLogLoop AL T c fuel attempt sel lastTime offset).iterations[k]? = some it →
      (fullActionLogLoop AL T c fuel attempt sel lastTime offset).iterations[k + 1]? = some next →
      ∃ first rest tl, it.listing = first :: rest ∧ it.result = .ok (first :: tl) ∧
        next.cursor = T first := by
  induction fuel generalizing attempt sel lastTime offset with
  | zero => simp [fullActionLogLoop]
  | succ fuel ih =>
    rcases loop_cases AL T c fuel attempt sel lastTime offset with
      ⟨err, _, h⟩ | ⟨f, _, h2, h⟩ | ⟨f, a, r, _, h2, h3, h⟩ | ⟨f, a, r, _, h2, h3, h⟩
    · rw [h]
      refine ⟨fun it hit => ?_, fun k it next _ hn => by simp at hn⟩
      simp only [List.getElem?_cons_zero, Option.some.injEq] at hit
      subst hit; rfl
    · rw [h]
      refine ⟨fun it hit => ?_, fun k it next _ hn => by simp at hn⟩
      simp only [List.getElem?_cons_zero, Option.some.injEq] at hit
      subst hit; rfl
    · rw [h]
      refine ⟨fun it hit => ?_, fun k it next _ hn => by simp at hn⟩
      simp only [List.getElem?_cons_zero, Option.some.injEq] at hit
      subst hit; rfl
    · rw [h]
      obtain ⟨ih0, ih1⟩ := ih (attempt + 1) (pushListing c sel (a :: r).reverse).2.1 (T a)
        (offset + (a :: r).length)
      refine ⟨fun it hit => ?_, fun k it next hit hn => ?_⟩
      · simp only [Run.after, List.getElem?_cons_zero, Option.some.injEq] at hit
        subst hit; rfl
      · cases k with
        | zero =>
          simp only [Run.after, List.getElem?_cons_zero, Option.some.injEq] at hit
          simp only [Run.after, zero_add, List.getElem?_cons_succ] at hn
          subst hit
          obtain ⟨tl, htl⟩ := removeOverlap_head offset f a r h2
          exact ⟨a, r, tl, rfl, by rw [htl], ih0 next hn⟩
        | succ k =>
          simp only [Run.after, List.getElem?_cons_succ] at hit hn
          exact ih1 k it next hit hn

/-- An iteration whose listing is empty after the overlap removal is the last
one, and the run ends as exhausted with nothing sent on `errRes`. -/
theorem loop_empty_listing_ends (fuel attempt sel : Nat) (lastTime : Time) (offset k : Nat)
    (it : Iteration α ε) (page : List α)
    (hk : (fullActionLogLoop AL T c fuel attempt sel lastTime offset).iterations[k]? = some it)
    (hp : it.result = .ok page) (he : it.listing = []) :
    (fullActionLogLoop AL T c fuel attempt sel lastTime offset).iterations.length = k + 1 ∧
    (fullActionLogLoop AL T c fuel attempt sel lastTime offset).ending = .exhausted ∧
    (fullActionLogLoop AL T c fuel attempt sel lastTime offset).errors = [] := by
  induction fuel generalizing attempt sel lastTime offset k with
  | zero => simp [fullActionLogLoop] at hk
  | succ fuel ih =>
    rcases loop_cases AL T c fuel attempt sel lastTime offset with
      ⟨err, _, h⟩ | ⟨f, _, h2, h⟩ | ⟨f, a, r, _, h2, h3, h⟩ | ⟨f, a, r, _, h2, h3, h⟩
    · rw [h] at hk
      cases k with
      | zero =>
        simp only [List.getElem?_cons_zero, Option.some.injEq] at hk
        subst hk
        cases hp
      | succ k => simp at hk
    · rw [h] at hk ⊢
      cases k with
      | zero => simp
      | succ k => simp at hk
    · rw [h] at hk
      cases k with
      | zero =>
        simp only [List.getElem?_cons_zero, Option.some.injEq] at hk
        subst hk
        cases he
      | succ k => simp at hk
    · rw [h] at hk ⊢
      cases k with
      | zero =>
        simp only [Run.after, List.getElem?_cons_zero, Option.some.injEq] at hk
        subst hk
        cases he
      | succ k =>
        simp only [Run.after, List.getElem?_cons_succ] at hk
        have := ih _ _ _ _ _ hk
        simpa [Run.after] using this

/-- Only a failed run sends on `errRes`. -/
theorem loop_errors_nil (fuel attempt sel : Nat) (lastTime : Time) (offset : Nat)
    (h : (fullActionLogLoop AL T c fuel attempt sel lastTime offset).ending ≠ .failed) :
    (fullActionLogLoop AL T c fuel attempt sel lastTime offset).errors = [] := by
  induction fuel generalizing attempt sel lastTime offset with
  | zero => simp [fullActionLogLoop]
  | succ fuel ih =>
    rcases loop_cases AL T c fuel attempt sel lastTime offset with
      ⟨err, _, hr⟩ | ⟨f, _, h2, hr⟩ | ⟨f, a, r, _, h2, h3, hr⟩ | ⟨f, a, r, _, h2, h3, hr⟩
    · rw [hr] at h; simp at h
    · rw [hr]
    · rw [hr]
    · rw [hr] at h ⊢
      exact ih _ _ _ _ h

/-- A run that has ended does not change when the bound on iterations grows. -/
theorem loop_ended_stable (fuel attempt sel : Nat) (lastTime : Time) (offset : Nat)
    (h : (fullActionLogLoop AL T c fuel attempt sel lastTime offset).ending ≠ .unfinished)
    (more : Nat) :
    fullActionLogLoop AL T c (fuel + more) attempt sel lastTime offset =
      fullActionLogLoop AL T c fuel attempt sel lastTime offset := by
  induction fuel generalizing attempt sel lastTime offset with
  | zero => simp [fullActionLogLoop] at h
  | succ fuel ih =>
    have hm : fuel + 1 + more = (fuel + more) + 1 := by omega
    rw [hm]
    rcases loop_cases AL T c fuel attempt sel lastTime offset with
      ⟨err, _, hr⟩ | ⟨f, _, h2, hr⟩ | ⟨f, a, r, _, h2, h3, hr⟩ | ⟨f, a, r, hf, h2, h3, hr⟩
    · rw [hr]; simp only [fullActionLogLoop, *]
    · rw [hr]; simp only [fullActionLogLoop, *]
    · rw [hr]; simp only [fullActionLogLoop, *]; simp
    · rcases loop_cases AL T c (fuel + more) attempt sel lastTime offset with
        ⟨err, h', _⟩ | ⟨f', h', h2', _⟩ | ⟨f', a', r', h', h2', h3', _⟩ |
        ⟨f', a', r', h', h2', h3', hr'⟩
      · rw [hf] at h'; cases h'
      · rw [hf] at h'; cases h'; rw [h2] at h2'; cases h2'
      · rw [hf] at h'; cases h'; rw [h2] at h2'; cases h2'; rw [h3] at h3'; cases h3'
      · rw [hf] at h'; cases h'; rw [h2] at h2'; cases h2'
        rw [hr', hr]
        rw [hr] at h
        rw [ih _ _ _ _ h]

/-- Whatever the cancellation oracle, what a run sends on `res` is a prefix of
what the never-cancelled run sends, given at least as many iterations. -/
theorem loop_delivered_initial (fuel fuel' attempt sel sel' : Nat) (lastTime : Time)
    (offset : Nat) (hle : fuel ≤ fuel') :
    (fullActionLogLoop AL T c fuel attempt sel lastTime offset).delivered <+:
      (fullActionLogLoop AL T neverCancelled fuel' attempt sel' lastTime offset).delivered := by
  induction fuel generalizing fuel' attempt sel sel' lastTime offset with
  | zero => simp [fullActionLogLoop, Run.delivered]
  | succ fuel ih =>
    obtain ⟨g, rfl⟩ : ∃ g, fuel' = g + 1 := ⟨fuel' - 1, by omega⟩
    rcases loop_cases AL T c fuel attempt sel lastTime offset with
      ⟨err, _, hr⟩ | ⟨f, _, h2, hr⟩ | ⟨f, a, r, hf, h2, h3, hr⟩ | ⟨f, a, r, hf, h2, h3, hr⟩
    · rw [hr]; simp [Run.delivered]
    · rw [hr]; simp [Run.delivered]
    · rw [hr, loop_neverCancelled_continue AL T g attempt sel' lastTime offset f a r hf h2,
        delivered_after]
      simp only [Run.delivered, List.map_cons, List.map_nil, List.flatten_cons,
        List.flatten_nil, List.append_nil]
      exact (pushListing_sent_initial c sel (a :: r).reverse).trans (List.prefix_append _ _)
    · rw [hr, loop_neverCancelled_continue AL T g attempt sel' lastTime offset f a r hf h2,
        delivered_after, delivered_after]
      exact (List.prefix_append_right_inj _).mpr (ih _ _ _ _ _ _ (by omega))

/-- A run that is still going after `fuel` iterations has made `fuel` calls. -/
theorem loop_unfinished_fetches (fuel attempt sel : Nat) (lastTime : Time) (offset : Nat)
    (h : (fullActionLogLoop AL T c fuel attempt sel lastTime offset).ending = .unfinished) :
    (fullActionLogLoop AL T c fuel attempt sel lastTime offset).fetches = fuel := by
  induction fuel generalizing attempt sel lastTime offset with
  | zero => simp [fullActionLogLoop, Run.fetches]
  | succ fuel ih =>
    rcases loop_cases AL T c fuel attempt sel lastTime offset with
      ⟨err, _, hr⟩ | ⟨f, _, h2, hr⟩ | ⟨f, a, r, _, h2, h3, hr⟩ | ⟨f, a, r, _, h2, h3, hr⟩
    · rw [hr] at h; simp at h
    · rw [hr] at h; simp at h
    · rw [hr] at h; simp at h
    · rw [hr] at h ⊢
      rw [fetches_after, ih _ _ _ _ h]

/-- If the never-cancelled run is still going after `M` iterations and the
next call fails, the run is the `M` iterations followed by the failed one. -/
theorem loop_fails_after (M attempt sel : Nat) (lastTime : Time) (offset : Nat) (err : ε)
    (h : (fullActionLogLoop AL T neverCancelled M attempt sel lastTime offset).ending
      = .unfinished)
    (hf : AL (attempt + M)
      (fullActionLogLoop AL T neverCancelled M attempt sel lastTime offset).lastTime
      actionBufferSize = .error err) (more : Nat) :
    (fullActionLogLoop AL T neverCancelled (M + (more + 1)) attempt sel lastTime
        offset).iterations =
      (fullActionLogLoop AL T neverCancelled M attempt sel lastTime offset).iterations ++
        [⟨(fullActionLogLoop AL T neverCancelled M attempt sel lastTime offset).lastTime,
          .error err, [], []⟩] ∧
    (fullActionLogLoop AL T neverCancelled (M + (more + 1)) attempt sel lastTime
        offset).errors = [err] ∧
    (fullActionLogLoop AL T neverCancelled (M + (more + 1)) attempt sel lastTime
        offset).ending = .failed := by
  induction M generalizing attempt sel lastTime offset with
  | zero =>
    simp only [fullActionLogLoop, Nat.add_zero] at hf
    simp [fullActionLogLoop, hf]
  | succ M ih =>
    have hm : M + 1 + (more + 1) = (M + (more + 1)) + 1 := by omega
    rw [hm]
    rcases loop_cases AL T neverCancelled M attempt sel lastTime offset with
      ⟨e, _, hr⟩ | ⟨f, _, h2, hr⟩ | ⟨f, a, r, _, h2, h3, hr⟩ | ⟨f, a, r, hok, h2, h3, hr⟩
    · rw [hr] at h; simp at h
    · rw [hr] at h; simp at h
    · rw [hr] at h; simp at h
    · rw [loop_neverCancelled_continue AL T _ attempt sel lastTime offset f a r hok h2]
      rw [hr] at h hf ⊢
      have hf' : AL (attempt + 1 + M)
          (fullActionLogLoop AL T neverCancelled M (attempt + 1)
            (pushListing neverCancelled sel (a :: r).reverse).2.1 (T a)
            (offset + (a :: r).length)).lastTime actionBufferSize = .error err := by
        rw [show attempt + 1 + M = attempt + (M + 1) by omega]; exact hf
      obtain ⟨i1, i2, i3⟩ := ih _ _ _ _ h hf'
      exact ⟨by simp only [Run.after, i1, List.cons_append], by simpa [Run.after] using i2,
        by simpa [Run.after] using i3⟩

/-- With pages in chronological order and bounded by the cursor, the actions
sent never increase in time, and none is newer than a present cursor. -/
theorem loop_delivered_sorted (hpages : ChronologicalPages AL T) (fuel attempt sel : Nat)
    (lastTime : Time) (offset : Nat) :
    (fullActionLogLoop AL T c fuel attempt sel lastTime offset).delivered.Pairwise
      (fun a b => T b ≤ T a) ∧
    (IsZero lastTime = false →
      ∀ a ∈ (fullActionLogLoop AL T c fuel attempt sel lastTime offset).delivered,
        T a ≤ lastTime) := by
  induction fuel generalizing attempt sel lastTime offset with
  | zero => simp [fullActionLogLoop, Run.delivered]
  | succ fuel ih =>
    rcases loop_cases AL T c fuel attempt sel lastTime offset with
      ⟨err, _, hr⟩ | ⟨f, _, h2, hr⟩ | ⟨f, a, r, hf, h2, h3, hr⟩ | ⟨f, a, r, hf, h2, h3, hr⟩
    · rw [hr]; simp [Run.delivered]
    · rw [hr]; simp [Run.delivered]
    · obtain ⟨hasc, _, hbound⟩ := hpages _ _ _ _ hf
      have hsub : List.Sublist (a :: r) f := h2 ▸ (removeOverlap_initial offset f).sublist
      have hpre := (pushListing_sent_initial c sel (a :: r).reverse).sublist
      rw [hr]
      simp only [Run.delivered, List.map_cons, List.map_nil, List.flatten_cons,
        List.flatten_nil, List.append_nil]
      refine ⟨(List.pairwise_reverse.mpr (hasc.sublist hsub)).sublist hpre, fun hz x hx => ?_⟩
      exact hbound hz x (hsub.subset (List.mem_reverse.mp (hpre.subset hx)))
    · obtain ⟨hasc, hnz, hbound⟩ := hpages _ _ _ _ hf
      have hsub : List.Sublist (a :: r) f := h2 ▸ (removeOverlap_initial offset f).sublist
      have hasc' := hasc.sublist hsub
      obtain ⟨ihs, ihb⟩ := ih (attempt + 1) (pushListing c sel (a :: r).reverse).2.1 (T a)
        (offset + (a :: r).length)
      have hza : IsZero (T a) = false := hnz a (hsub.subset (List.mem_cons_self _ _))
      have hmin : ∀ x ∈ a :: r, T a ≤ T x := by
        intro x hx
        rcases List.mem_cons.mp hx with rfl | hx
        · exact le_refl _
        · exact (List.pairwise_cons.mp hasc').1 x hx
      rw [hr, delivered_after]
      refine ⟨List.pairwise_append.mpr ⟨List.pairwise_reverse.mpr hasc', ihs,
        fun x hx y hy => ?_⟩, fun hz x hx => ?_⟩
      · exact le_trans (ihb hza y hy) (hmin x (List.mem_reverse.mp hx))
      · rcases List.mem_append.mp hx with hx | hx
        · exact hbound hz x (hsub.subset (List.mem_reverse.mp hx))
        · exact le_trans (ihb hza x hx)
            (hbound hz a (hsub.subset (List.mem_cons_self _ _)))

/-- A run of at least one iteration makes its first call with the initial
`lastTime`. -/
theorem loop_first_cursor (fuel attempt sel : Nat) (lastTime : Time) (offset : Nat) :
    ((fullActionLogLoop AL T c (fuel + 1) attempt sel lastTime offset).iterations[0]?).map
      (fun it => it.cursor) = some lastTime := by
  rcases loop_cases AL T c fuel attempt sel lastTime offset with
    ⟨err, _, h⟩ | ⟨f, _, h2, h⟩ | ⟨f, a, r, _, h2, h3, h⟩ | ⟨f, a, r, _, h2, h3, h⟩ <;>
  · rw [h]; simp [Run.after]

/-- A run makes at most as many calls as iterations are allowed. -/
theorem loop_fetches_le (fuel attempt sel : Nat) (lastTime : Time) (offset : Nat) :
    (fullActionLogLoop AL T c fuel attempt sel lastTime offset).fetches ≤ fuel := by
  induction fuel generalizing attempt sel lastTime offset with
  | zero => simp [fullActionLogLoop, Run.fetches]
  | succ fuel ih =>
    rcases loop_cases AL T c fuel attempt sel lastTime offset with
      ⟨err, _, h⟩ | ⟨f, _, h2, h⟩ | ⟨f, a, r, _, h2, h3, h⟩ | ⟨f, a, r, _, h2, h3, h⟩
    · rw [h]; simp [Run.fetches]
    · rw [h]; simp [Run.fetches]
    · rw [h]; simp [Run.fetches]
    · rw [h, fetches_after]
      exact Nat.succ_le_succ (ih _ _ _ _)

end Shape

/-! ## Termination when the cursor moves back -/

section Progress

variable {α ε : Type} (AL : Nat → Time → Nat → Except ε (List α)) (T : α → Time)

theorem older_count_decreases (history : List α) (x : α) (hx : x ∈ history) (cursor : Time)
    (hlt : T x < cursor) :
    (history.filter (fun a => decide (T a < T x))).length <
      (history.filter (fun a => decide (T a < cursor))).length := by
  have hsub : List.Sublist (history.filter (fun a => decide (T a < T x)))
      (history.filter (fun a => decide (T a < cursor))) :=
    List.monotone_filter_right history (fun a ha => by
      simp only [decide_eq_true_eq] at ha ⊢
      exact lt_trans ha hlt)
  rcases Nat.lt_or_ge (history.filter (fun a => decide (T a < T x))).length
      (history.filter (fun a => decide (T a < cursor))).length with h | h
  · exact h
  · have heq := hsub.eq_of_length (le_antisymm hsub.length_le h)
    have hin : x ∈ history.filter (fun a => decide (T a < cursor)) :=
      List.mem_filter.mpr ⟨hx, by simpa using hlt⟩
    rw [← heq] at hin
    have := (List.mem_filter.mp hin).2
    simp at this

/-- From a present cursor and a positive offset the loop ends within one call
more than the number of actions older than the cursor. -/
theorem loop_terminates_from (history : List α) (hs : ServesWithProgress AL T history)
    (m attempt sel : Nat) (lastTime : Time) (offset : Nat) (ho : 0 < offset)
    (hz : IsZero lastTime = false)
    (hm : (history.filter (fun a => decide (T a < lastTime))).length ≤ m) :
    ∃ fuel, fuel ≤ m + 1 ∧
      (fullActionLogLoop AL T neverCancelled fuel attempt sel lastTime offset).ending
        = .exhausted := by
  induction m generalizing attempt sel lastTime offset with
  | zero =>
    obtain ⟨page, hp⟩ := hs.1 attempt lastTime
    refine ⟨1, le_refl _, ?_⟩
    cases hl : removeOverlap offset page with
    | nil => simp [fullActionLogLoop, hp, hl]
    | cons first rest =>
      rw [removeOverlap_pos offset ho] at hl
      have hlt := hs.2.2.2 attempt lastTime page first rest hz hp hl
      have hin : first ∈ history :=
        hs.2.1 attempt lastTime page hp first
          ((List.dropLast_sublist page).subset (hl ▸ List.mem_cons_self _ _))
      have : first ∈ history.filter (fun a => decide (T a < lastTime)) :=
        List.mem_filter.mpr ⟨hin, by simpa using hlt⟩
      have := List.length_pos_of_mem this
      omega
  | succ m ih =>
    obtain ⟨page, hp⟩ := hs.1 attempt lastTime
    cases hl : removeOverlap offset page with
    | nil => exact ⟨1, by omega, by simp [fullActionLogLoop, hp, hl]⟩
    | cons first rest =>
      have hl' := hl
      rw [removeOverlap_pos offset ho] at hl'
      have hlt := hs.2.2.2 attempt lastTime page first rest hz hp hl'
      have hin : first ∈ history :=
        hs.2.1 attempt lastTime page hp first
          ((List.dropLast_sublist page).subset (hl' ▸ List.mem_cons_self _ _))
      have hdec := older_count_decreases T history first hin lastTime hlt
      obtain ⟨fuel, hfuel, hend⟩ := ih (attempt + 1)
        (pushListing neverCancelled sel (first :: rest).reverse).2.1 (T first)
        (offset + (first :: rest).length) (by omega) (hs.2.2.1 first hin) (by omega)
      refine ⟨fuel + 1, by omega, ?_⟩
      rw [loop_neverCancelled_continue AL T fuel attempt sel lastTime offset page first rest hp hl]
      exact hend

/-- The never-cancelled run against such a fetcher ends as exhausted within
`history.length + 2` calls. -/
theorem fullActionLog_terminates_of_progress (history : List α)
    (hs : ServesWithProgress AL T history) :
    ∃ fuel, fuel ≤ history.length + 2 ∧
      (FullActionLog AL T neverCancelled fuel).ending = .exhausted := by
  obtain ⟨page, hp⟩ := hs.1 0 zeroTime
  cases hl : removeOverlap 0 page with
  | nil => exact ⟨1, by omega, by simp [FullActionLog, fullActionLogLoop, hp, hl]⟩
  | cons first rest =>
    have hin : first ∈ history := by
      rw [removeOverlap_zero] at hl
      exact hs.2.1 0 zeroTime page hp first (hl ▸ List.mem_cons_self _ _)
    obtain ⟨fuel, hfuel, hend⟩ := loop_terminates_from AL T history hs history.length 1
      (pushListing neverCancelled 0 (first :: rest).reverse).2.1 (T first)
      (0 + (first :: rest).length) (by simp) (hs.2.2.1 first hin)
      (List.length_filter_le _ _)
    refine ⟨fuel + 1, by omega, ?_⟩
    unfold FullActionLog
    rw [loop_neverCancelled_continue AL T fuel 0 0 zeroTime 0 page first rest hp hl]
    exact hend

end Progress

/-! ## Paging through a conversation with an inclusive cursor -/

section Inclusive

variable {α ε : Type} (AL : Nat → Time → Nat → Except ε (List α)) (T : α → Time)

theorem ceil_div_step (r d : Nat) (hd : 1 ≤ d) (hr : 1 ≤ r) :
    (r + (d - 1)) / d = (r - d + (d - 1)) / d + 1 := by
  rcases Nat.lt_or_ge r d with h | h
  · have h1 : (r - d + (d - 1)) / d = 0 := Nat.div_eq_of_lt (by omega)
    have h2 : r + (d - 1) = (r - 1) + d := by omega
    have h3 : (r - 1) / d = 0 := Nat.div_eq_of_lt (by omega)
    rw [h1, h2, Nat.add_div_right _ (by omega), h3]
  · have h2 : r + (d - 1) = (r - d + (d - 1)) + d := by omega
    rw [h2, Nat.add_div_right _ (by omega)]

theorem newestFirst_perm (history : List α) : (newestFirst T history).Perm history :=
  List.perm_insertionSort _ history

theorem newestFirst_strict (history : List α) (hd : (history.map T).Nodup) :
    (newestFirst T history).Pairwise (fun a b => T b < T a) := by
  have hsorted : (newestFirst T history).Pairwise (fun a b => T b ≤ T a) := by
    haveI : IsTotal α (fun a b => T b ≤ T a) := ⟨fun a b => le_total (T b) (T a)⟩
    haveI : IsTrans α (fun a b => T b ≤ T a) := ⟨fun a b c hab hbc => le_trans hbc hab⟩
    exact List.sorted_insertionSort (fun a b => T b ≤ T a) history
  have hnd : ((newestFirst T history).map T).Nodup :=
    (((newestFirst_perm T history).map T).nodup_iff).mpr hd
  have hne : (newestFirst T history).Pairwise (fun a b => T a ≠ T b) :=
    List.pairwise_map.mp hnd
  exact (hsorted.and hne).imp (fun h => lt_of_le_of_ne h.1 (Ne.symm h.2))

/-- In a list that is strictly newest first, the actions no newer than one of
its elements are that element and everything after it. -/
theorem filter_le_of_strict (pre : List α) (b : α) (rest : List α)
    (h : (pre ++ b :: rest).Pairwise (fun x y => T y < T x)) :
    (pre ++ b :: rest).filter (fun x => decide (T x ≤ T b)) = b :: rest := by
  obtain ⟨_, h2, h3⟩ := List.pairwise_append.mp h
  rw [List.filter_append]
  have e1 : pre.filter (fun x => decide (T x ≤ T b)) = [] := by
    rw [List.filter_eq_nil_iff]
    intro x hx
    have := h3 x hx b (List.mem_cons_self _ _)
    simp only [decide_eq_true_eq, not_le]
    exact this
  have e2 : (b :: rest).filter (fun x => decide (T x ≤ T b)) = b :: rest := by
    rw [List.filter_eq_self]
    intro x hx
    simp only [decide_eq_true_eq]
    rcases List.mem_cons.mp hx with rfl | hx
    · exact le_refl _
    · exact le_of_lt ((List.pairwise_cons.mp h2).1 x hx)
  rw [e1, e2, List.nil_append]

/-- After the first page: from the cursor of the action `b` the loop sends
everything older than `b`, in order, and then ends as exhausted. -/
theorem loop_inclusive_tail (h : List α) (S : Nat) (hS : 2 ≤ S)
    (hstrict : h.Pairwise (fun x y => T y < T x)) (hs : ServesInclusive AL T h S)
    (fuel : Nat) (rest pre : List α) (b : α) (attempt sel offset : Nat)
    (hh : h = pre ++ b :: rest) (ho : 0 < offset)
    (hfuel : 1 + (rest.length + (S - 2)) / (S - 1) ≤ fuel) :
    (fullActionLogLoop AL T neverCancelled fuel attempt sel (T b) offset).delivered = rest ∧
    (fullActionLogLoop AL T neverCancelled fuel attempt sel (T b) offset).ending
      = .exhausted ∧
    (fullActionLogLoop AL T neverCancelled fuel attempt sel (T b) offset).errors = [] ∧
    (fullActionLogLoop AL T neverCancelled fuel attempt sel (T b) offset).fetches =
      1 + (rest.length + (S - 2)) / (S - 1) := by
  induction fuel generalizing rest pre b attempt sel offset with
  | zero => simp at hfuel
  | succ fuel ih =>
    have hb : b ∈ h := by rw [hh]; simp
    have hpage := hs.2 attempt b hb
    have hfil : h.filter (fun x => decide (T x ≤ T b)) = b :: rest := by
      rw [hh]; exact filter_le_of_strict T pre b rest (hh ▸ hstrict)
    obtain ⟨S', rfl⟩ : ∃ S', S = S' + 2 := ⟨S - 2, by omega⟩
    have e1 : S' + 2 - 2 = S' := rfl
    have e2 : S' + 2 - 1 = S' + 1 := rfl
    simp only [e1, e2] at hfuel ih ⊢
    rw [hfil] at hpage
    simp only [List.take_succ_cons, List.reverse_cons] at hpage
    have hrem : removeOverlap offset ((rest.take (S' + 1)).reverse ++ [b]) =
        (rest.take (S' + 1)).reverse := by
      rw [removeOverlap_pos offset ho, List.dropLast_concat]
    rcases List.eq_nil_or_concat (rest.take (S' + 1)) with hnil | ⟨init, b', hcat⟩
    · have hr : rest = [] := by
        rcases List.take_eq_nil_iff.mp hnil with h0 | h0
        · omega
        · exact h0
      subst hr
      simp only [List.take_nil, List.reverse_nil, List.nil_append] at hrem hpage
      rw [loop_step_exhausted AL T neverCancelled fuel attempt sel (T b) offset _ hpage hrem]
      simp [Run.delivered, Run.fetches, Nat.div_eq_of_lt]
    · rw [List.concat_eq_append] at hcat
      rw [hcat, List.reverse_append, List.reverse_singleton, List.singleton_append] at hrem hpage
      rw [loop_neverCancelled_continue AL T fuel attempt sel (T b) offset _ b' init.reverse
        hpage hrem]
      have hlen : (rest.drop (S' + 1)).length = rest.length - (S' + 1) := by simp
      have hpos : 1 ≤ rest.length := by
        rcases Nat.eq_zero_or_pos rest.length with h0 | h0
        · rw [List.length_eq_zero.mp h0] at hcat
          simp at hcat
        · exact h0
      have hsplit : rest = init ++ b' :: rest.drop (S' + 1) := by
        conv_lhs => rw [← List.take_append_drop (S' + 1) rest, hcat]
        simp
      generalize rest.drop (S' + 1) = tl at hlen hsplit
      have hstep := ceil_div_step rest.length (S' + 1) (by omega) hpos
      simp only [Nat.add_sub_cancel] at hstep
      have hfuel' : 1 + (tl.length + S') / (S' + 1) ≤ fuel := by
        rw [hlen]
        omega
      obtain ⟨i1, i2, i3, i4⟩ := ih tl (pre ++ b :: init) b'
        (attempt + 1) (pushListing neverCancelled sel (b' :: init.reverse).reverse).2.1
        (offset + (b' :: init.reverse).length)
        (by rw [hh, hsplit]; simp) (by omega) hfuel'
      refine ⟨?_, i2, i3, ?_⟩
      · rw [delivered_after, i1, hsplit]
        simp
      · rw [fetches_after, i4, hlen]
        omega

/-- The never-cancelled run against a fetcher with an inclusive cursor sends
the whole conversation, newest first, and ends as exhausted after
`inclusiveFetchCount` calls. -/
theorem fullActionLog_inclusive (h : List α) (S : Nat) (hS : 2 ≤ S)
    (hstrict : h.Pairwise (fun x y => T y < T x)) (hs : ServesInclusive AL T h S)
    (fuel : Nat) (hfuel : inclusiveFetchCount h.length S ≤ fuel) :
    (FullActionLog AL T neverCancelled fuel).delivered = h ∧
    (FullActionLog AL T neverCancelled fuel).ending = .exhausted ∧
    (FullActionLog AL T neverCancelled fuel).errors = [] ∧
    (FullActionLog AL T neverCancelled fuel).fetches = inclusiveFetchCount h.length S := by
  have hpos : 1 ≤ inclusiveFetchCount h.length S := by
    unfold inclusiveFetchCount
    split_ifs
    · exact le_refl 1
    · exact Nat.le_add_right_of_le (by omega)
  obtain ⟨g, rfl⟩ : ∃ g, fuel = g + 1 := ⟨fuel - 1, by omega⟩
  have hpage := hs.1 0
  unfold FullActionLog
  rcases List.eq_nil_or_concat (h.take S) with hnil | ⟨init, b', hcat⟩
  · have hh : h = [] := by
      rcases List.take_eq_nil_iff.mp hnil with h0 | h0
      · omega
      · exact h0
    subst hh
    simp only [List.take_nil, List.reverse_nil] at hpage
    rw [loop_step_exhausted AL T neverCancelled g 0 0 zeroTime 0 _ hpage (removeOverlap_zero _)]
    simp [Run.delivered, Run.fetches, inclusiveFetchCount]
  · rw [List.concat_eq_append] at hcat
    rw [hcat, List.reverse_append, List.reverse_singleton, List.singleton_append] at hpage
    rw [loop_neverCancelled_continue AL T g 0 0 zeroTime 0 _ b' init.reverse hpage
      (removeOverlap_zero _)]
    have hsplit : h = init ++ b' :: h.drop S := by
      conv_lhs => rw [← List.take_append_drop S h, hcat]
      simp
    have hne : h.length ≠ 0 := by
      intro h0
      rw [List.length_eq_zero.mp h0] at hcat
      simp at hcat
    have hlen : (h.drop S).length = h.length - min h.length S := by
      rw [List.length_drop]; omega
    have hcount : inclusiveFetchCount h.length S =
        1 + (1 + ((h.drop S).length + (S - 2)) / (S - 1)) := by
      rw [hlen]; unfold inclusiveFetchCount; rw [if_neg hne]; omega
    obtain ⟨i1, i2, i3, i4⟩ := loop_inclusive_tail AL T h S hS hstrict hs g (h.drop S) init b'
      1 (pushListing neverCancelled 0 (b' :: init.reverse).reverse).2.1
      (0 + (b' :: init.reverse).length) hsplit (by simp) (by omega)
    refine ⟨?_, i2, i3, ?_⟩
    · rw [delivered_after, i1]
      simp only [List.reverse_cons, List.reverse_reverse]
      conv_rhs => rw [hsplit]
      simp
    · rw [fetches_after, i4, hcount]; omega

end Inclusive

/-! ## The fetchers of the specification against the guarantees -/

section Fetchers

variable {α ε : Type} (T : α → Time)

theorem newestFirst_sorted (history : List α) :
    (newestFirst T history).Pairwise (fun a b => T b ≤ T a) := by
  haveI : IsTotal α (fun a b => T b ≤ T a) := ⟨fun a b => le_total (T b) (T a)⟩
  haveI : IsTrans α (fun a b => T b ≤ T a) := ⟨fun a b c hab hbc => le_trans hbc hab⟩
  exact List.sorted_insertionSort (fun a b => T b ≤ T a) history

theorem exclusiveFetcher_meets_guarantee (history : List α) (S : Nat) :
    MeetsPageGuarantee (exclusiveFetcher (ε := ε) T history S) T := by
  intro attempt cursor limit page hp
  simp only [exclusiveFetcher, Except.ok.injEq] at hp
  subst hp
  refine ⟨?_, ?_, fun hz a ha => ?_⟩
  · rw [List.length_take]
    exact le_trans (min_le_left _ _) (min_le_right _ _)
  · exact (newestFirst_sorted T history).sublist
      ((List.take_sublist _ _).trans (List.filter_sublist _))
  · have := (List.mem_filter.mp ((List.take_sublist _ _).subset ha)).2
    simpa [hz] using this

theorem inclusiveFetcher_chronological (history : List α) (S : Nat)
    (hnz : ∀ a ∈ history, IsZero (T a) = false) :
    ChronologicalPages (inclusiveFetcher (ε := ε) T history S) T := by
  intro attempt cursor limit page hp
  simp only [inclusiveFetcher, newestPage, Except.ok.injEq] at hp
  subst hp
  have hsub : ∀ (q : α → Bool) (k : Nat), List.Sublist
      (((newestFirst T history).filter q).take k) (newestFirst T history) :=
    fun q k => (List.take_sublist _ _).trans (List.filter_sublist _)
  refine ⟨?_, fun a ha => ?_, fun hz a ha => ?_⟩
  · exact List.pairwise_reverse.mpr ((newestFirst_sorted T history).sublist (hsub _ _))
  · exact hnz a ((newestFirst_perm T history).mem_iff.mp
      ((hsub _ _).subset (List.mem_reverse.mp ha)))
  · have := (List.mem_filter.mp ((List.take_sublist _ _).subset (List.mem_reverse.mp ha))).2
    simpa [hz] using this

theorem inclusiveFetcher_serves (history : List α) (S : Nat)
    (hnz : ∀ a ∈ history, IsZero (T a) = false) :
    ServesInclusive (inclusiveFetcher (ε := ε) T history S) T (newestFirst T history)
      (min S actionBufferSize) := by
  refine ⟨fun attempt => ?_, fun attempt a ha => ?_⟩
  · have hz : IsZero zeroTime = true := by simp [IsZero]
    simp [inclusiveFetcher, newestPage, hz]
  · have hz := hnz a ((newestFirst_perm T history).mem_iff.mp ha)
    simp [inclusiveFetcher, newestPage, hz]

end Fetchers

/-! ## Total ordering (C1) -/

/-- C1, counterexample.  The fetcher that serves the conversation `[1, 2]` as the
specification prescribes (newest first, exclusive cursor) meets the Page
Fetcher guarantee, the never-cancelled run ends as exhausted, and yet the
actions sent are `1` and then `2`: the older one first. -/
theorem fullActionLog_order_counterexample :
    MeetsPageGuarantee (exclusiveFetcher (ε := String) id [1, 2] 500) id ∧
    (FullActionLog (exclusiveFetcher (ε := String) id [1, 2] 500) id neverCancelled 2).ending
      = Ending.exhausted ∧
    (FullActionLog (exclusiveFetcher (ε := String) id [1, 2] 500) id neverCancelled
      2).delivered = [1, 2] ∧
    ¬ List.Chain' (fun a b : Int => id b ≤ id a)
      (FullActionLog (exclusiveFetcher (ε := String) id [1, 2] 500) id neverCancelled
        2).delivered := by
  have hd : (FullActionLog (exclusiveFetcher (ε := String) id [1, 2] 500) id neverCancelled
      2).delivered = [1, 2] := by decide
  refine ⟨exclusiveFetcher_meets_guarantee id [1, 2] 500, by decide, hd, ?_⟩
  rw [hd]
  simp

/-- C1, amended.  For every page fetcher whose pages are in chronological
order (oldest first), hold no action stamped with the zero time and hold only
actions with timestamp at most the cursor when the cursor is present, any two
actions sent consecutively on the action channel satisfy
`a.timestamp ≥ b.timestamp`, whatever the number of iterations run and whether
or not the run is cancelled. -/
theorem fullActionLog_order_chronological {α ε : Type}
    (AL : Nat → Time → Nat → Except ε (List α)) (T : α → Time) (cancel : Nat → Bool)
    (hpages : ChronologicalPages AL T) (fuel : Nat) :
    List.Chain' (fun a b => T b ≤ T a) (FullActionLog AL T cancel fuel).delivered :=
  (loop_delivered_sorted AL T cancel hpages fuel 0 0 zeroTime 0).1.chain'

/-- C1, witness: the conversation `[1, 2, 3]` served oldest first with an
inclusive cursor is sent as `3, 2, 1`. -/
theorem fullActionLog_order_chronological_witness :
    ChronologicalPages (inclusiveFetcher (ε := String) id [1, 2, 3] 500) id ∧
    (FullActionLog (inclusiveFetcher (ε := String) id [1, 2, 3] 500) id neverCancelled
      5).delivered = [3, 2, 1] ∧
    List.Chain' (fun a b : Int => id b ≤ id a)
      (FullActionLog (inclusiveFetcher (ε := String) id [1, 2, 3] 500) id neverCancelled
        5).delivered :=
  ⟨inclusiveFetcher_chronological id [1, 2, 3] 500 (by decide), by decide,
    fullActionLog_order_chronological (inclusiveFetcher (ε := String) id [1, 2, 3] 500) id
      neverCancelled (inclusiveFetcher_chronological id [1, 2, 3] 500 (by decide)) 5⟩

/-! ## Exact coverage (C2) -/

/-- C2, counterexample.  The conversation `[1, 2, 3]` (K = 3) served as the
specification prescribes, with page size S = 500: the fetcher meets the Page
Fetcher guarantee and the never-cancelled run ends as exhausted, but it makes 3
calls (neither `⌈3/500⌉ = 1` nor `2`) and sends `1, 2, 3, 2`: four actions,
the action `2` twice. -/
theorem fullActionLog_coverage_counterexample :
    MeetsPageGuarantee (exclusiveFetcher (ε := String) id [1, 2, 3] 500) id ∧
    (FullActionLog (exclusiveFetcher (ε := String) id [1, 2, 3] 500) id neverCancelled
      3).ending = Ending.exhausted ∧
    (FullActionLog (exclusiveFetcher (ε := String) id [1, 2, 3] 500) id neverCancelled
      3).delivered = [1, 2, 3, 2] ∧
    (FullActionLog (exclusiveFetcher (ε := String) id [1, 2, 3] 500) id neverCancelled
      3).fetches = 3 ∧
    ¬ ((FullActionLog (exclusiveFetcher (ε := String) id [1, 2, 3] 500) id neverCancelled
        3).delivered.Perm [1, 2, 3] ∧
      ((FullActionLog (exclusiveFetcher (ε := String) id [1, 2, 3] 500) id neverCancelled
          3).fetches = (3 + 499) / 500 ∨
        (FullActionLog (exclusiveFetcher (ε := String) id [1, 2, 3] 500) id neverCancelled
          3).fetches = (3 + 499) / 500 + 1)) := by
  have hd : (FullActionLog (exclusiveFetcher (ε := String) id [1, 2, 3] 500) id neverCancelled
      3).delivered = [1, 2, 3, 2] := by decide
  refine ⟨exclusiveFetcher_meets_guarantee id [1, 2, 3] 500, by decide, hd, by decide, ?_⟩
  rintro ⟨hperm, _⟩
  rw [hd] at hperm
  exact absurd hperm.length_eq (by decide)

/-- C2, amended.  For every conversation with exactly K actions, with pairwise
distinct timestamps none of which is the zero time, served by a page fetcher
with page size S, `2 ≤ S ≤ 500`, that returns, oldest first, the S newest
actions with timestamp at most the cursor (the S newest overall when the cursor
is absent), the never-cancelled run ends as exhausted, makes exactly
`inclusiveFetchCount K S` calls (1 when K = 0, otherwise
`2 + ⌈(K - min K S) / (S - 1)⌉`), and sends exactly K actions, each action of
the conversation exactly once. -/
theorem fullActionLog_coverage_inclusive {α ε : Type} (T : α → Time) (history : List α)
    (S : Nat) (hS : 2 ≤ S) (hS' : S ≤ actionBufferSize)
    (hdistinct : (history.map T).Nodup) (hnz : ∀ a ∈ history, IsZero (T a) = false)
    (fuel : Nat) (hfuel : inclusiveFetchCount history.length S ≤ fuel) :
    (FullActionLog (inclusiveFetcher (ε := ε) T history S) T neverCancelled fuel).ending
      = Ending.exhausted ∧
    (FullActionLog (inclusiveFetcher (ε := ε) T history S) T neverCancelled fuel).fetches
      = inclusiveFetchCount history.length S ∧
    (FullActionLog (inclusiveFetcher (ε := ε) T history S) T neverCancelled
      fuel).delivered.length = history.length ∧
    (FullActionLog (inclusiveFetcher (ε := ε) T history S) T neverCancelled
      fuel).delivered.Perm history ∧
    (FullActionLog (inclusiveFetcher (ε := ε) T history S) T neverCancelled
      fuel).delivered.Nodup := by
  have hmin : min S actionBufferSize = S := min_eq_left hS'
  have hserves := inclusiveFetcher_serves (ε := ε) T history S hnz
  rw [hmin] at hserves
  have hlen : (newestFirst T history).length = history.length :=
    (newestFirst_perm T history).length_eq
  obtain ⟨h1, h2, _, h4⟩ := fullActionLog_inclusive (inclusiveFetcher (ε := ε) T history S) T
    (newestFirst T history) S hS (newestFirst_strict T history hdistinct) hserves fuel
    (by rw [hlen]; exact hfuel)
  rw [h1]
  refine ⟨h2, by rw [h4, hlen], hlen, newestFirst_perm T history, ?_⟩
  exact ((newestFirst_perm T history).nodup_iff).mpr (List.Nodup.of_map T hdistinct)

/-- C2, witness: seven actions served three at a time take
`2 + ⌈(7 - 3) / 2⌉ = 4` calls and are sent newest first. -/
theorem fullActionLog_coverage_inclusive_witness :
    inclusiveFetchCount 7 3 = 4 ∧
    (FullActionLog (inclusiveFetcher (ε := String) id [4, 1, 7, 2, 6, 3, 5] 3) id
      neverCancelled 4).delivered = [7, 6, 5, 4, 3, 2, 1] ∧
    ((FullActionLog (inclusiveFetcher (ε := String) id [4, 1, 7, 2, 6, 3, 5] 3) id
        neverCancelled 4).ending = Ending.exhausted ∧
      (FullActionLog (inclusiveFetcher (ε := String) id [4, 1, 7, 2, 6, 3, 5] 3) id
        neverCancelled 4).fetches = inclusiveFetchCount [4, 1, 7, 2, 6, 3, 5].length 3 ∧
      (FullActionLog (inclusiveFetcher (ε := String) id [4, 1, 7, 2, 6, 3, 5] 3) id
        neverCancelled 4).delivered.length = [4, 1, 7, 2, 6, 3, 5].length ∧
      (FullActionLog (inclusiveFetcher (ε := String) id [4, 1, 7, 2, 6, 3, 5] 3) id
        neverCancelled 4).delivered.Perm [4, 1, 7, 2, 6, 3, 5] ∧
      (FullActionLog (inclusiveFetcher (ε := String) id [4, 1, 7, 2, 6, 3, 5] 3) id
        neverCancelled 4).delivered.Nodup) :=
  ⟨by decide, by decide,
    fullActionLog_coverage_inclusive id [4, 1, 7, 2, 6, 3, 5] 3 (by decide) (by decide)
      (by decide) (by decide) 4 (by decide)⟩

/-! ## Error propagation (C3) -/

/-- C3.  Let `N ≥ 1`.  Suppose the never-cancelled run is still going after
`N - 1` iterations (its first `N - 1` calls succeeded, each leaving a non-empty
listing after the overlap removal) and the `N`-th call, made with the cursor
the loop has reached, returns the error `err`.  Then every run of at least `N`
iterations consists of those `N - 1` iterations followed by one that sends no
action: it delivers exactly the actions of the first `N - 1` iterations, sends
exactly `err` on the error channel, makes `N` calls and ends as failed. -/
theorem fullActionLog_error_propagation {α ε : Type}
    (AL : Nat → Time → Nat → Except ε (List α)) (T : α → Time) (N : Nat) (hN : 1 ≤ N)
    (err : ε)
    (hprev : (FullActionLog AL T neverCancelled (N - 1)).ending = Ending.unfinished)
    (hfail : AL (N - 1) (FullActionLog AL T neverCancelled (N - 1)).lastTime actionBufferSize
      = .error err)
    (fuel : Nat) (hfuel : N ≤ fuel) :
    (FullActionLog AL T neverCancelled fuel).iterations =
      (FullActionLog AL T neverCancelled (N - 1)).iterations ++
        [⟨(FullActionLog AL T neverCancelled (N - 1)).lastTime, .error err, [], []⟩] ∧
    (FullActionLog AL T neverCancelled fuel).delivered =
      (FullActionLog AL T neverCancelled (N - 1)).delivered ∧
    (FullActionLog AL T neverCancelled fuel).errors = [err] ∧
    (FullActionLog AL T neverCancelled fuel).fetches = N ∧
    (FullActionLog AL T neverCancelled fuel).ending = Ending.failed := by
  obtain ⟨more, rfl⟩ : ∃ more, fuel = (N - 1) + (more + 1) := ⟨fuel - N, by omega⟩
  have hf : AL (0 + (N - 1))
      (fullActionLogLoop AL T neverCancelled (N - 1) 0 0 zeroTime 0).lastTime actionBufferSize
      = .error err := by
    rw [Nat.zero_add]; exact hfail
  obtain ⟨h1, h2, h3⟩ := loop_fails_after AL T (N - 1) 0 0 zeroTime 0 err hprev hf more
  have hcount := loop_unfinished_fetches AL T neverCancelled (N - 1) 0 0 zeroTime 0 hprev
  unfold Run.fetches at hcount
  refine ⟨h1, ?_, h2, ?_, h3⟩
  · unfold Run.delivered FullActionLog
    rw [h1]
    simp
  · unfold Run.fetches FullActionLog
    rw [h1, List.length_append, hcount]
    simp
    omega

/-- C3, witness: the third call fails after pages `[1, 2, 3]` and `[0, 1]`;
the run sends `3, 2, 1, 0` and then the error. -/
theorem fullActionLog_error_propagation_witness :
    (FullActionLog failingFetcher id neverCancelled 5).delivered = [3, 2, 1, 0] ∧
    (FullActionLog failingFetcher id neverCancelled 5).errors = ["connection reset"] ∧
    (FullActionLog failingFetcher id neverCancelled 5).fetches = 3 ∧
    (FullActionLog failingFetcher id neverCancelled 5).ending = Ending.failed := by
  have h := fullActionLog_error_propagation failingFetcher id 3 (by decide)
    "connection reset" (by decide) rfl 5 (by decide)
  exact ⟨h.2.1.trans (by decide), h.2.2.1, h.2.2.2.1, h.2.2.2.2⟩

/-! ## Boundary dedup (C4) -/

/-- C4.  In a run that is never cancelled, the first fetched page has nothing
removed and is sent in full (backwards); every later fetched page that is
non-empty has exactly its last element removed, and the rest is sent
(backwards): one action fewer than the page holds. -/
theorem fullActionLog_boundary_dedup {α ε : Type}
    (AL : Nat → Time → Nat → Except ε (List α)) (T : α → Time) (fuel k : Nat)
    (it : Iteration α ε) (page : List α)
    (hk : (FullActionLog AL T neverCancelled fuel).iterations[k]? = some it)
    (hp : it.result = .ok page) :
    (k = 0 → it.listing = page ∧ it.sent = page.reverse) ∧
    (0 < k → page ≠ [] →
      it.listing = page.dropLast ∧ it.sent = page.dropLast.reverse ∧
      it.sent.length + 1 = page.length) := by
  obtain ⟨o, ho0, ho1, ho⟩ :=
    loop_iteration_listing AL T neverCancelled fuel 0 0 zeroTime 0 k it hk
  obtain ⟨hl, hs⟩ := ho page hp
  have hs := hs rfl
  refine ⟨fun h0 => ?_, fun hpos hne => ?_⟩
  · rw [ho0 h0, removeOverlap_zero] at hl
    exact ⟨hl, by rw [hs, hl]⟩
  · rw [removeOverlap_pos o (ho1 hpos)] at hl
    refine ⟨hl, by rw [hs, hl], ?_⟩
    rw [hs, hl, List.length_reverse, List.length_dropLast]
    have := List.length_pos.mpr hne
    omega

set_option maxRecDepth 100000 in
/-- C4, witness: pages of 500, 500, 251 and 0 actions give emissions of 500,
499 and 250 actions. -/
theorem fullActionLog_boundary_dedup_witness :
    (FullActionLog scenarioFetcher id neverCancelled 4).iterations.map
      (fun it => it.sent.length) = [500, 499, 250, 0] ∧
    ((1 = 0 → (List.replicate 499 (1 : Int)) = List.replicate 500 1 ∧
        (List.replicate 499 (1 : Int)) = (List.replicate 500 1).reverse) ∧
      (0 < 1 → List.replicate 500 (1 : Int) ≠ [] →
        List.replicate 499 (1 : Int) = (List.replicate 500 1).dropLast ∧
        List.replicate 499 (1 : Int) = (List.replicate 500 1).dropLast.reverse ∧
        (List.replicate 499 (1 : Int)).length + 1 = (List.replicate 500 (1 : Int)).length)) :=
  ⟨by rfl,
    fullActionLog_boundary_dedup scenarioFetcher id 4 1
      ⟨1, .ok (List.replicate 500 1), List.replicate 499 1, List.replicate 499 1⟩
      (List.replicate 500 1) (by rfl) rfl⟩

/-! ## Cancellation (C5) -/

/-- C5.  Whatever the page fetcher and whatever each `select` observes on the
`cancel` channel, a run that ends because a `select` took the cancellation
branch sends nothing on the error channel, does nothing more however many
further iterations are allowed (no further call, no further action), and the
actions it sent are a prefix of what the never-cancelled run against the same
fetcher sends. -/
theorem fullActionLog_cancellation {α ε : Type}
    (AL : Nat → Time → Nat → Except ε (List α)) (T : α → Time) (cancel : Nat → Bool)
    (fuel : Nat) (hc : (FullActionLog AL T cancel fuel).ending = Ending.cancelled) :
    (FullActionLog AL T cancel fuel).errors = [] ∧
    (∀ more, FullActionLog AL T cancel (fuel + more) = FullActionLog AL T cancel fuel) ∧
    (∀ fuel', fuel ≤ fuel' →
      (FullActionLog AL T cancel fuel).delivered <+:
        (FullActionLog AL T neverCancelled fuel').delivered) := by
  refine ⟨?_, fun more => ?_, fun fuel' hle => ?_⟩
  · exact loop_errors_nil AL T cancel fuel 0 0 zeroTime 0 (by
      unfold FullActionLog at hc; rw [hc]; decide)
  · exact loop_ended_stable AL T cancel fuel 0 0 zeroTime 0 (by
      unfold FullActionLog at hc; rw [hc]; decide) more
  · exact loop_delivered_initial AL T cancel fuel fuel' 0 0 0 zeroTime 0 hle

/-- C5, witness: with the channel seen closed from the sixth `select` on, the
run sends `3, 2, 1` and stops inside the second page; the never-cancelled run
sends `3, 2, 1, 0`. -/
theorem fullActionLog_cancellation_witness :
    (FullActionLog twoPageFetcher id (cancelledFrom 6) 5).ending = Ending.cancelled ∧
    (FullActionLog twoPageFetcher id (cancelledFrom 6) 5).delivered = [3, 2, 1] ∧
    (FullActionLog twoPageFetcher id neverCancelled 5).delivered = [3, 2, 1, 0] ∧
    (FullActionLog twoPageFetcher id (cancelledFrom 6) 5).errors = [] ∧
    (FullActionLog twoPageFetcher id (cancelledFrom 6) 5).delivered <+:
      (FullActionLog twoPageFetcher id neverCancelled 5).delivered :=
  ⟨by decide, by decide, by decide,
    (fullActionLog_cancellation twoPageFetcher id (cancelledFrom 6) 5 (by decide)).1,
    (fullActionLog_cancellation twoPageFetcher id (cancelledFrom 6) 5 (by decide)).2.2 5
      (le_refl 5)⟩

/-! ## Graceful exhaustion (C6) -/

/-- C6.  Whatever the page fetcher and the cancellation, an iteration whose
fetched page is empty after the overlap removal is the last one (no further
call is made), the run ends as exhausted and nothing is sent on the error
channel.  In particular, if the first call returns an empty page, every run of
at least one iteration makes exactly one call, sends no action and no error,
and ends as exhausted. -/
theorem fullActionLog_exhaustion {α ε : Type}
    (AL : Nat → Time → Nat → Except ε (List α)) (T : α → Time) (cancel : Nat → Bool)
    (fuel k : Nat) (it : Iteration α ε) (page : List α)
    (hk : (FullActionLog AL T cancel fuel).iterations[k]? = some it)
    (hp : it.result = .ok page) (he : it.listing = []) :
    ((FullActionLog AL T cancel fuel).fetches = k + 1 ∧
      (FullActionLog AL T cancel fuel).ending = Ending.exhausted ∧
      (FullActionLog AL T cancel fuel).errors = [] ∧
      ∀ more, FullActionLog AL T cancel (fuel + more) = FullActionLog AL T cancel fuel) ∧
    (AL 0 zeroTime actionBufferSize = .ok [] →
      ∀ n, (FullActionLog AL T cancel (n + 1)).fetches = 1 ∧
        (FullActionLog AL T cancel (n + 1)).delivered = [] ∧
        (FullActionLog AL T cancel (n + 1)).errors = [] ∧
        (FullActionLog AL T cancel (n + 1)).ending = Ending.exhausted) := by
  obtain ⟨h1, h2, h3⟩ :=
    loop_empty_listing_ends AL T cancel fuel 0 0 zeroTime 0 k it page hk hp he
  refine ⟨⟨h1, h2, h3, fun more => ?_⟩, fun h0 n => ?_⟩
  · exact loop_ended_stable AL T cancel fuel 0 0 zeroTime 0 (by rw [h2]; decide) more
  · unfold FullActionLog
    rw [loop_step_exhausted AL T cancel n 0 0 zeroTime 0 [] h0 (removeOverlap_zero _)]
    simp [Run.fetches, Run.delivered]

/-- C6, witness: after pages `[1, 2, 3]` and `[0, 1]` the third page is empty
and the run stops there; a conversation with no action takes one call. -/
theorem fullActionLog_exhaustion_witness :
    ((FullActionLog twoPageFetcher id neverCancelled 7).fetches = 2 + 1 ∧
      (FullActionLog twoPageFetcher id neverCancelled 7).ending = Ending.exhausted ∧
      (FullActionLog twoPageFetcher id neverCancelled 7).errors = [] ∧
      ∀ more, FullActionLog twoPageFetcher id neverCancelled (7 + more) =
        FullActionLog twoPageFetcher id neverCancelled 7) ∧
    (FullActionLog (inclusiveFetcher (ε := String) id [] 500) id neverCancelled 1).fetches
      = 1 :=
  ⟨(fullActionLog_exhaustion twoPageFetcher id neverCancelled 7 2
      ⟨0, .ok [], [], []⟩ [] (by rfl) rfl rfl).1,
    ((fullActionLog_exhaustion (inclusiveFetcher (ε := String) id [] 500) id neverCancelled 1 0
      ⟨zeroTime, .ok [], [], []⟩ [] (by rfl) rfl rfl).2 (by rfl) 0).1⟩

/-! ## `OtherUserFBID` (C7) -/

/-- C7, the code at a group chat: `marshalThreadInfo` stores the address of
`resp.ThreadKey.OtherUserID`, so `OtherUserFBID` is a non-nil pointer to the
empty string, not nil; the same holds of every element of `marshalThreadList`. -/
theorem marshalThreadInfo_group_chat_not_nil :
    (marshalThreadInfo id (fun _ => (none : Option Int)) 0 groupChatResponse).OtherUserFBID
      = some "" ∧
    (marshalThreadInfo id (fun _ => (none : Option Int)) 0 groupChatResponse).OtherUserFBID
      ≠ none ∧
    (marshalThreadList id (fun _ => (none : Option Int)) 0
      [groupChatResponse, groupChatResponse]).map (fun info => info.OtherUserFBID)
      = [some "", some ""] := by
  refine ⟨rfl, ?_, rfl⟩
  intro h
  cases h

/-! ## Cursor derivation (C8) -/

/-- C8, counterexample.  The first page `[3, 2, 1]` is in reverse-chronological
order and non-empty after dedup; the cursor passed to the second call is `3`,
the newest timestamp of the page, while the oldest (the minimum) is `1`. -/
theorem fullActionLog_cursor_counterexample :
    exclusiveFetcher (ε := String) id [1, 2, 3] 500 0 zeroTime actionBufferSize
      = .ok [3, 2, 1] ∧
    List.Pairwise (fun a b : Int => b ≤ a) [3, 2, 1] ∧
    (FullActionLog (exclusiveFetcher (ε := String) id [1, 2, 3] 500) id neverCancelled
      2).iterations.map (fun it => (it.cursor, it.listing)) = [(zeroTime, [3, 2, 1]), (3, [2])] ∧
    ¬ (∀ a ∈ ([3, 2, 1] : List Int), (3 : Int) ≤ a) := by
  refine ⟨rfl, by decide, by decide, by decide⟩

/-- C8, amended.  Every run of at least one iteration makes its first call
with the zero time as cursor.  For every fetched page that is followed by
another call (it is then non-empty after dedup), the cursor passed to that next
call is the timestamp of the first element of the page as fetched; when the
page is in chronological order (oldest first) this is the timestamp of its
oldest action, the minimum timestamp occurring in the page. -/
theorem fullActionLog_cursor_derivation {α ε : Type}
    (AL : Nat → Time → Nat → Except ε (List α)) (T : α → Time) (cancel : Nat → Bool)
    (fuel k : Nat) (it next : Iteration α ε)
    (hk : (FullActionLog AL T cancel fuel).iterations[k]? = some it)
    (hn : (FullActionLog AL T cancel fuel).iterations[k + 1]? = some next) :
    (∀ n, ((FullActionLog AL T cancel (n + 1)).iterations[0]?).map (fun i => i.cursor)
      = some zeroTime) ∧
    ∃ first tl, it.result = .ok (first :: tl) ∧ it.listing ≠ [] ∧ next.cursor = T first ∧
      ((first :: tl).Pairwise (fun a b => T a ≤ T b) →
        ∀ a ∈ first :: tl, next.cursor ≤ T a) := by
  refine ⟨fun n => loop_first_cursor AL T cancel n 0 0 zeroTime 0, ?_⟩
  obtain ⟨first, rest, tl, h1, h2, h3⟩ :=
    (loop_cursor_chain AL T cancel fuel 0 0 zeroTime 0).2 k it next hk hn
  refine ⟨first, tl, h2, by rw [h1]; simp, h3, fun hasc a ha => ?_⟩
  rw [h3]
  rcases List.mem_cons.mp ha with rfl | ha
  · exact le_refl _
  · exact (List.pairwise_cons.mp hasc).1 a ha

/-- C8, witness: after the page `[1, 2, 3]` the second call is made with the
cursor `1`. -/
theorem fullActionLog_cursor_derivation_witness :
    (FullActionLog twoPageFetcher id neverCancelled 3).iterations.map (fun it => it.cursor)
      = [zeroTime, 1, 0] ∧
    ∃ first tl, (Except.ok [1, 2, 3] : Except String (List Int)) = .ok (first :: tl) ∧
      ([1, 2, 3] : List Int) ≠ [] ∧ (1 : Int) = id first ∧
      ((first :: tl).Pairwise (fun a b => id a ≤ id b) → ∀ a ∈ first :: tl, (1 : Int) ≤ id a) :=
  ⟨by decide,
    (fullActionLog_cursor_derivation twoPageFetcher id neverCancelled 3 0
      ⟨zeroTime, .ok [1, 2, 3], [1, 2, 3], [3, 2, 1]⟩ ⟨1, .ok [0, 1], [0], [0]⟩
      (by rfl) (by rfl)).2⟩

/-! ## Livelock (C9) -/

theorem tied_loop_unfinished (fuel attempt sel offset : Nat) (ho : 0 < offset) :
    (fullActionLogLoop (inclusiveFetcher (ε := String) Prod.snd tiedHistory 500) Prod.snd
      neverCancelled fuel attempt sel 5 offset).ending = Ending.unfinished := by
  induction fuel generalizing attempt sel offset with
  | zero => rfl
  | succ fuel ih =>
    have hp : inclusiveFetcher (ε := String) Prod.snd tiedHistory 500 attempt 5
        actionBufferSize = .ok [(2, 5), (1, 5)] := by rfl
    have hl : removeOverlap offset [((2 : Nat), (5 : Time)), (1, 5)] = [(2, 5)] := by
      rw [removeOverlap_pos offset ho]; rfl
    rw [loop_neverCancelled_continue _ _ fuel attempt sel 5 offset _ (2, 5) [] hp hl]
    exact ih (attempt + 1) _ (offset + 1) (by omega)

theorem inclusiveFetcher_progress {α ε : Type} (T : α → Time) (history : List α) (S : Nat)
    (hdistinct : (history.map T).Nodup) (hnz : ∀ a ∈ history, IsZero (T a) = false) :
    ServesWithProgress (inclusiveFetcher (ε := ε) T history S) T history := by
  have hsub : ∀ (q : α → Bool) (k : Nat), List.Sublist
      (((newestFirst T history).filter q).take k) (newestFirst T history) :=
    fun q k => (List.take_sublist _ _).trans (List.filter_sublist _)
  refine ⟨fun attempt cursor => ⟨_, rfl⟩, fun attempt cursor page hp a ha => ?_, hnz,
    fun attempt cursor page first rest hz hp hd => ?_⟩
  · simp only [inclusiveFetcher, newestPage, Except.ok.injEq] at hp
    subst hp
    exact (newestFirst_perm T history).mem_iff.mp ((hsub _ _).subset (List.mem_reverse.mp ha))
  · simp only [inclusiveFetcher, newestPage, Except.ok.injEq, hz] at hp
    have hne : page ≠ [] := by
      intro h0; rw [h0] at hd; simp at hd
    have hasc : page.Pairwise (fun a b => T a < T b) := by
      rw [← hp]
      exact List.pairwise_reverse.mpr
        ((newestFirst_strict T history hdistinct).sublist (hsub _ _))
    have hall : ∀ a ∈ page, T a ≤ cursor := by
      rw [← hp]
      intro a ha
      have := (List.mem_filter.mp ((List.take_sublist _ _).subset
        (List.mem_reverse.mp ha))).2
      simpa using this
    have hle : T (page.getLast hne) ≤ cursor := hall _ (List.getLast_mem hne)
    have hsplit := List.dropLast_append_getLast hne
    rw [hd] at hsplit
    rw [← hsplit] at hasc
    have := (List.pairwise_cons.mp hasc).1 (page.getLast hne) (by simp)
    exact lt_of_lt_of_le this hle

/-- C9, counterexample.  The fetcher that serves the two actions of
`tiedHistory` with an inclusive cursor never fails and serves a finite
conversation; at the cursor 5 it returns a page in which every action has the
cursor's timestamp.  The never-cancelled run against it never ends: whatever
the number of iterations allowed, it is still going. -/
theorem fullActionLog_livelock_counterexample :
    (∀ attempt cursor limit, ∃ page,
      inclusiveFetcher (ε := String) Prod.snd tiedHistory 500 attempt cursor limit = .ok page ∧
      ∀ a ∈ page, a ∈ tiedHistory) ∧
    inclusiveFetcher (ε := String) Prod.snd tiedHistory 500 1 5 actionBufferSize
      = .ok [(2, 5), (1, 5)] ∧
    (FullActionLog (inclusiveFetcher (ε := String) Prod.snd tiedHistory 500) Prod.snd
      neverCancelled 4).delivered = [(1, 5), (2, 5), (2, 5), (2, 5), (2, 5)] ∧
    ¬ ∃ fuel, (FullActionLog (inclusiveFetcher (ε := String) Prod.snd tiedHistory 500) Prod.snd
      neverCancelled fuel).ending ≠ Ending.unfinished := by
  refine ⟨fun attempt cursor limit => ⟨_, rfl, fun a ha => ?_⟩, rfl, by decide, ?_⟩
  · simp only [newestPage] at ha
    exact (newestFirst_perm Prod.snd tiedHistory).mem_iff.mp
      ((List.filter_sublist _).subset ((List.take_sublist _ _).subset (List.mem_reverse.mp ha)))
  · rintro ⟨fuel, h⟩
    apply h
    cases fuel with
    | zero => rfl
    | succ fuel =>
      have hp : inclusiveFetcher (ε := String) Prod.snd tiedHistory 500 0 zeroTime
          actionBufferSize = .ok [(2, 5), (1, 5)] := by rfl
      unfold FullActionLog
      rw [loop_neverCancelled_continue _ _ fuel 0 0 zeroTime 0 _ (2, 5) [(1, 5)] hp
        (removeOverlap_zero _)]
      exact tied_loop_unfinished fuel 1 _ (0 + 2) (by omega)

/-- C9, amended.  For every page fetcher that never fails, serves actions of a
finite conversation none of which is stamped with the zero time, and lets the
cursor move back (the first action of every page that is still non-empty after
dedup is strictly older than the cursor the page was fetched with), the
never-cancelled run makes at most `history.length + 2` calls and then ends as
exhausted.  A page that is non-empty before dedup and empty after it leads to
no further call: the run ends as exhausted at once. -/
theorem fullActionLog_terminates {α ε : Type}
    (AL : Nat → Time → Nat → Except ε (List α)) (T : α → Time) (history : List α)
    (hs : ServesWithProgress AL T history) :
    (∃ fuel, fuel ≤ history.length + 2 ∧ ∀ more,
      (FullActionLog AL T neverCancelled (fuel + more)).ending = Ending.exhausted ∧
      (FullActionLog AL T neverCancelled (fuel + more)).fetches ≤ history.length + 2) ∧
    ∀ fuel k it page, (FullActionLog AL T neverCancelled fuel).iterations[k]? = some it →
      it.result = .ok page → page ≠ [] → it.listing = [] →
      (FullActionLog AL T neverCancelled fuel).fetches = k + 1 ∧
      (FullActionLog AL T neverCancelled fuel).ending = Ending.exhausted := by
  refine ⟨?_, fun fuel k it page hk hp _ he => ?_⟩
  · obtain ⟨fuel, hle, hend⟩ := fullActionLog_terminates_of_progress AL T history hs
    refine ⟨fuel, hle, fun more => ?_⟩
    have hstable : FullActionLog AL T neverCancelled (fuel + more) =
        FullActionLog AL T neverCancelled fuel :=
      loop_ended_stable AL T neverCancelled fuel 0 0 zeroTime 0
        (by unfold FullActionLog at hend; rw [hend]; decide) more
    rw [hstable]
    exact ⟨hend, le_trans (loop_fetches_le AL T neverCancelled fuel 0 0 zeroTime 0) hle⟩
  · obtain ⟨h1, h2, _⟩ :=
      loop_empty_listing_ends AL T neverCancelled fuel 0 0 zeroTime 0 k it page hk hp he
    exact ⟨h1, h2⟩

/-- C9, witness: three actions with distinct timestamps, served with an
inclusive cursor; the last page holds the boundary action alone, is empty after
dedup, and the run ends there. -/
theorem fullActionLog_terminates_witness :
    (FullActionLog (inclusiveFetcher (ε := String) id [1, 2, 3] 500) id neverCancelled
      2).iterations.map (fun it => (it.cursor, it.listing)) = [(zeroTime, [1, 2, 3]), (1, [])] ∧
    ∃ fuel, fuel ≤ [(1 : Int), 2, 3].length + 2 ∧ ∀ more,
      (FullActionLog (inclusiveFetcher (ε := String) id [1, 2, 3] 500) id neverCancelled
        (fuel + more)).ending = Ending.exhausted ∧
      (FullActionLog (inclusiveFetcher (ε := String) id [1, 2, 3] 500) id neverCancelled
        (fuel + more)).fetches ≤ [(1 : Int), 2, 3].length + 2 :=
  ⟨by decide,
    (fullActionLog_terminates (inclusiveFetcher (ε := String) id [1, 2, 3] 500) id [1, 2, 3]
      (inclusiveFetcher_progress id [1, 2, 3] 500 (by decide) (by decide))).1⟩

/-! ## What the loop's indexing assumes (C10) -/

theorem isZero_of_unixMilli (t : Time) (h : IsUnixMilli t) : IsZero t = false := by
  obtain ⟨ms, _, hlo, _⟩ := h
  have hne : t ≠ zeroTime := by
    intro h0
    rw [h0] at hlo
    exact absurd hlo (by decide)
  simpa [IsZero] using hne

theorem unixNano_div_of_unixMilli (t : Time) (h : IsUnixMilli t) :
    ∃ ms : Int, t = ms * 1000000 ∧ Int.tdiv (UnixNano t) 1000000 = ms := by
  obtain ⟨ms, hms, hlo, hhi⟩ := h
  refine ⟨ms, hms, ?_⟩
  have hw : UnixNano t = t := by
    unfold UnixNano wrapInt64
    have e : (t + 2 ^ 63) % 2 ^ 64 = t + 2 ^ 63 :=
      Int.emod_eq_of_lt (by omega) (by omega)
    rw [e]
    omega
  rw [hw, hms]
  exact Int.mul_tdiv_cancel ms (by decide)

theorem actionLog_serves {ν α ε : Type}
    (graphQLDoc : Nat → Option Int → Nat → Except ε (List ν)) (decodeAction : ν → α)
    (T : α → Time) (history : List α) (hms : ∀ a ∈ history, IsUnixMilli (T a))
    (hserve : ServesHistory graphQLDoc decodeAction T history) :
    ServesInclusive (fun attempt => ActionLog (graphQLDoc attempt) decodeAction) T
      (newestFirst T history) actionBufferSize := by
  refine ⟨fun attempt => ?_, fun attempt a ha => ?_⟩
  · obtain ⟨nodes, h1, h2⟩ := hserve attempt none
    have hz : IsZero zeroTime = true := by simp [IsZero]
    show ActionLog (graphQLDoc attempt) decodeAction zeroTime actionBufferSize = _
    unfold ActionLog
    simp only [hz, if_true]
    rw [h1]
    simp [h2, newestPage]
  · have hm := hms a ((newestFirst_perm T history).mem_iff.mp ha)
    obtain ⟨ms, e1, e2⟩ := unixNano_div_of_unixMilli (T a) hm
    obtain ⟨nodes, h1, h2⟩ := hserve attempt (some ms)
    show ActionLog (graphQLDoc attempt) decodeAction (T a) actionBufferSize = _
    unfold ActionLog
    simp only [isZero_of_unixMilli (T a) hm, Bool.false_eq_true, if_false, e2]
    rw [h1]
    simp only [h2, newestPage, Option.map_some', ← e1]

theorem historyEndpoint_serves (history : List Time) :
    ServesHistory (historyEndpoint history) id id history :=
  fun _ _ => ⟨_, rfl, by simp⟩

theorem early_loop_unfinished (fuel attempt sel offset : Nat) (ho : 0 < offset) :
    (fullActionLogLoop (fun n => ActionLog (historyEndpoint earlyHistory n) id) id
      neverCancelled fuel attempt sel (-10000000000000000000) offset).ending
      = Ending.unfinished := by
  induction fuel generalizing attempt sel offset with
  | zero => rfl
  | succ fuel ih =>
    have hp : (fun n => ActionLog (historyEndpoint earlyHistory n) id) attempt
        (-10000000000000000000) actionBufferSize
        = .ok [-10000000000000000000, 1000000] := by rfl
    have hl : removeOverlap offset [(-10000000000000000000 : Time), 1000000]
        = [-10000000000000000000] := by
      rw [removeOverlap_pos offset ho]; rfl
    rw [loop_neverCancelled_continue _ _ fuel attempt sel (-10000000000000000000) offset _
      (-10000000000000000000) [] hp hl]
    exact ih (attempt + 1) _ (offset + 1) (by omega)

set_option maxRecDepth 100000 in
/-- C10, counterexample.  `earlyHistory` has two actions with distinct
whole-millisecond timestamps, neither the zero time, and the remote
`historyEndpoint` answers every query, oldest first, with the up-to-500 newest
actions no newer than `before`.  The older action is stamped in 1653, where
`UnixNano` wraps: `ActionLog` sends `before = 8446744073709` (the year 2237),
the page holds both actions again, and the older one is sent again at every
iteration; the run never ends.  The same happens at the zero time, which
`ActionLog` takes as the absent cursor (`zeroTimeHistory`).  After the range of
`UnixNano` (`lateHistory`, 501 actions in 2286) the second call sends a negative
`before`, the page is empty, and the run ends having sent 500 actions. -/
theorem fullActionLog_over_actionLog_counterexample :
    ((earlyHistory.map id).Nodup ∧
      (∀ a ∈ earlyHistory, ∃ ms : Int, a = ms * 1000000) ∧
      (∀ a ∈ earlyHistory, IsZero a = false) ∧
      ServesHistory (historyEndpoint earlyHistory) id id earlyHistory ∧
      ActionLog (historyEndpoint earlyHistory 1) id (-10000000000000000000) actionBufferSize
        = .ok [-10000000000000000000, 1000000] ∧
      (FullActionLog (fun n => ActionLog (historyEndpoint earlyHistory n) id) id
        neverCancelled 3).delivered
        = [1000000, -10000000000000000000, -10000000000000000000, -10000000000000000000] ∧
      ¬ ∃ fuel, (FullActionLog (fun n => ActionLog (historyEndpoint earlyHistory n) id) id
        neverCancelled fuel).ending ≠ Ending.unfinished) ∧
    (FullActionLog (fun n => ActionLog (historyEndpoint zeroTimeHistory n) id) id
      neverCancelled 3).delivered
      = [zeroTime + 1000000, zeroTime, zeroTime, zeroTime] ∧
    (lateHistory.length = 501 ∧
      (lateHistory.map id).Nodup ∧
      (∀ a ∈ lateHistory, ∃ ms : Int, a = ms * 1000000) ∧
      ServesHistory (historyEndpoint lateHistory) id id lateHistory ∧
      (FullActionLog (fun n => ActionLog (historyEndpoint lateHistory n) id) id
        neverCancelled 3).ending = Ending.exhausted ∧
      (FullActionLog (fun n => ActionLog (historyEndpoint lateHistory n) id) id
        neverCancelled 3).fetches = 2 ∧
      (FullActionLog (fun n => ActionLog (historyEndpoint lateHistory n) id) id
        neverCancelled 3).delivered.length = 500) := by
  refine ⟨⟨by decide, ?_, by decide, historyEndpoint_serves earlyHistory, by rfl, by decide,
    ?_⟩, by decide, by rfl, ?_, ?_, historyEndpoint_serves lateHistory, by rfl, by rfl, by rfl⟩
  · intro a ha
    simp only [earlyHistory, List.mem_cons, List.mem_singleton, List.not_mem_nil,
      or_false] at ha
    rcases ha with rfl | rfl
    · exact ⟨-10000000000000, by decide⟩
    · exact ⟨1, by decide⟩
  · rintro ⟨fuel, h⟩
    apply h
    cases fuel with
    | zero => rfl
    | succ fuel =>
      have hp : (fun n => ActionLog (historyEndpoint earlyHistory n) id) 0 zeroTime
          actionBufferSize = .ok [-10000000000000000000, 1000000] := by rfl
      unfold FullActionLog
      rw [loop_neverCancelled_continue _ _ fuel 0 0 zeroTime 0 _ (-10000000000000000000)
        [1000000] hp (removeOverlap_zero _)]
      exact early_loop_unfinished fuel 1 _ (0 + 2) (by omega)
  · rw [List.map_id]
    unfold lateHistory
    have hinj : Function.Injective (fun i : Nat => 10000000000000000000 + (i : Int) * 1000000) := by
      intro i j h
      simp only at h
      omega
    exact List.Nodup.map hinj (List.nodup_reverse.mpr (List.nodup_range 501))
  · intro a ha
    unfold lateHistory at ha
    obtain ⟨i, _, rfl⟩ := List.mem_map.mp ha
    exact ⟨10000000000000 + (i : Int), by ring⟩

/-- C10, amended.  The loop over the code of `ActionLog`, the remote query
being a parameter.  For every finite history whose actions have pairwise
distinct timestamps, each a whole number of milliseconds within the range
`UnixNano` can represent (an `int64` count of nanoseconds, the years 1678 to
2262; the zero time lies outside), if each fetch returns, in ascending
timestamp order, the up-to-500 newest actions whose timestamp is less than or
equal to the cursor `before` (the up-to-500 newest overall when the cursor is
absent), then the never-cancelled run of `FullActionLog` ends as exhausted
within `inclusiveFetchCount K 500` iterations, sends nothing on the error
channel, and sends every action of the history exactly once, in strictly
decreasing timestamp order. -/
theorem fullActionLog_over_actionLog {ν α ε : Type}
    (graphQLDoc : Nat → Option Int → Nat → Except ε (List ν)) (decodeAction : ν → α)
    (T : α → Time) (history : List α)
    (hdistinct : (history.map T).Nodup) (hms : ∀ a ∈ history, IsUnixMilli (T a))
    (hserve : ServesHistory graphQLDoc decodeAction T history)
    (fuel : Nat) (hfuel : inclusiveFetchCount history.length actionBufferSize ≤ fuel) :
    (FullActionLog (fun attempt => ActionLog (graphQLDoc attempt) decodeAction) T
      neverCancelled fuel).ending = Ending.exhausted ∧
    (FullActionLog (fun attempt => ActionLog (graphQLDoc attempt) decodeAction) T
      neverCancelled fuel).errors = [] ∧
    (FullActionLog (fun attempt => ActionLog (graphQLDoc attempt) decodeAction) T
      neverCancelled fuel).delivered.Perm history ∧
    (FullActionLog (fun attempt => ActionLog (graphQLDoc attempt) decodeAction) T
      neverCancelled fuel).delivered.Pairwise (fun a b => T b < T a) := by
  have hlen : (newestFirst T history).length = history.length :=
    (newestFirst_perm T history).length_eq
  obtain ⟨h1, h2, h3, _⟩ := fullActionLog_inclusive
    (fun attempt => ActionLog (graphQLDoc attempt) decodeAction) T (newestFirst T history)
    actionBufferSize (by decide) (newestFirst_strict T history hdistinct)
    (actionLog_serves graphQLDoc decodeAction T history hms hserve) fuel
    (by rw [hlen]; exact hfuel)
  rw [h1]
  exact ⟨h2, h3, newestFirst_perm T history, newestFirst_strict T history hdistinct⟩

/-- C10, witness: actions at 2 ms, 1 ms and 3 ms, served through `ActionLog`,
are sent as 3 ms, 2 ms, 1 ms. -/
theorem fullActionLog_over_actionLog_witness :
    (FullActionLog (fun attempt => ActionLog (historyEndpoint [2000000, 1000000, 3000000]
      attempt) id) id neverCancelled 2).delivered = [3000000, 2000000, 1000000] ∧
    (FullActionLog (fun attempt => ActionLog (historyEndpoint [2000000, 1000000, 3000000]
      attempt) id) id neverCancelled 2).ending = Ending.exhausted ∧
    (FullActionLog (fun attempt => ActionLog (historyEndpoint [2000000, 1000000, 3000000]
      attempt) id) id neverCancelled 2).errors = [] :=
  have h := fullActionLog_over_actionLog (historyEndpoint [2000000, 1000000, 3000000]) id id
    [2000000, 1000000, 3000000] (by decide)
    (fun a ha => by
      simp only [List.mem_cons, List.mem_singleton, List.not_mem_nil, or_false] at ha
      rcases ha with rfl | rfl | rfl
      · exact ⟨2, by decide, by decide, by decide⟩
      · exact ⟨1, by decide, by decide, by decide⟩
      · exact ⟨3, by decide, by decide, by decide⟩)
    (fun attempt before => ⟨_, rfl, by simp⟩) 2 (by decide)
  ⟨by decide, h.1, h.2.1⟩

end Fbmsgr
